import Mathlib

/-!
Shallow embedding of the libsmack rule/label engine and CIPSO store
(src/libsmack/libsmack.c), together with proofs about the properties the
specification claims for it.

Modelling conventions:
* C strings are `List Char` (no NUL terminator; a C string cannot contain NUL).
* Machine integers are `Nat` / `Int`; access codes are 6-bit values kept as
  `Nat` (the parser only ever produces values `< 64`, proved below).
* Kernel file descriptors are replaced by availability booleans; a write to a
  descriptor is recorded as an emitted record (`OutRec`).  The retry-on-EINTR
  and partial-write loops always eventually write the full buffer, so a write
  is modelled as atomically emitting the record.
* Heap allocation failures (`malloc`/`calloc` returning NULL) are not modelled.
* `fgets` chunking is modelled faithfully: `readLines k` splits the input into
  the chunks `fgets(buf, k + 2)` would return (at most `k + 1` characters per
  chunk, stopping after a newline).
-/

set_option maxRecDepth 10000

namespace Smack

/-- SMACK_LABEL_LEN, from the library header sys/smack.h (the header is part
of the repository but outside src/); the spec fixes the same bound:
labels are 1..255 bytes. -/
def SMACK_LABEL_LEN : Nat := 255

/-- SHORT_LABEL_LEN -/
def SHORT_LABEL_LEN : Nat := 23

/-- ACC_LEN -/
def ACC_LEN : Nat := 6

/-- LOAD_LEN = 2*(SMACK_LABEL_LEN+1) + 2*ACC_LEN + 1 = 525 -/
def LOAD_LEN : Nat := 2 * (SMACK_LABEL_LEN + 1) + 2 * ACC_LEN + 1

/-- ACCESS_TYPE_ALL = (1 << ACC_LEN) - 1 = 63 -/
def ACCESS_TYPE_ALL : Nat := 63

/-- LEVEL_MAX -/
def LEVEL_MAX : Nat := 255

/-- NUM_LEN -/
def NUM_LEN : Nat := 4

/-- BUF_SIZE (CIPSO line ingestion buffer) -/
def BUF_SIZE : Nat := 512

/-- CAT_MAX_COUNT -/
def CAT_MAX_COUNT : Nat := 240

/-- CAT_MAX_VALUE -/
def CAT_MAX_VALUE : Nat := 63

/-- MAX_LABELS_CNT = UINT16_MAX + 1 -/
def MAX_LABELS_CNT : Nat := 65536

/-- The double-quote character (written via its code so that the source
scanner of this file stays simple). -/
def quoteChar : Char := Char.ofNat 34

/-- The backslash character. -/
def backslashChar : Char := Char.ofNat 92

/-- The single-quote character. -/
def apostropheChar : Char := Char.ofNat 39

/-- Character acceptance test of `get_label`: the C code rejects
`src[i] <= ' ' || src[i] > '~'` and the four special characters. -/
def validLabelChar (c : Char) : Bool :=
  (' ' < c) && (c ≤ '~') &&
  !(c = '/' || c = quoteChar || c = backslashChar || c = apostropheChar)

/-- The scanning loop of `get_label`: index `i` runs while
`i < SMACK_LABEL_LEN + 1` and characters remain; a bad character aborts with
-1; at the end the C code returns `i < SMACK_LABEL_LEN + 1 ? i : -1`. -/
def get_label_loop : List Char → Nat → Option Nat
  | [], i => if i < SMACK_LABEL_LEN + 1 then some i else none
  | c :: cs, i =>
    if i < SMACK_LABEL_LEN + 1 then
      if validLabelChar c then get_label_loop cs (i + 1) else none
    else none

/-- `get_label` (validation only; the `dest` copy always reproduces the
validated input and the `hash` output is only used to pick a bucket, which
does not change lookup semantics, see `label_add`). Rejects an empty string
and a leading dash, then runs the scanning loop. Returns the label length. -/
def get_label (src : List Char) : Option Nat :=
  match src with
  | [] => none
  | c :: _ => if c = '-' then none else get_label_loop src 0

/-- One character of `str_to_access_code`: the bit it contributes, or `none`
for a format error. -/
def char_to_access_bit (c : Char) : Option Nat :=
  if c = 'r' || c = 'R' then some 1
  else if c = 'w' || c = 'W' then some 2
  else if c = 'x' || c = 'X' then some 4
  else if c = 'a' || c = 'A' then some 8
  else if c = 't' || c = 'T' then some 16
  else if c = 'l' || c = 'L' then some 32
  else if c = '-' then some 0
  else none

/-- The accumulation loop of `str_to_access_code` (`code |= bit`). -/
def str_to_access_code_loop : List Char → Nat → Option Nat
  | [], code => some code
  | c :: cs, code =>
    match char_to_access_bit c with
    | none => none
    | some b => str_to_access_code_loop cs (code ||| b)

/-- `str_to_access_code`: parse an access string into a 6-bit code. -/
def str_to_access_code (s : List Char) : Option Nat :=
  str_to_access_code_loop s 0

/-- `access_code_to_str`: fixed 6-character lowercase rendering in the order
r, w, x, a, t, l with a dash for every unset bit. -/
def access_code_to_str (code : Nat) : List Char :=
  [if code &&& 1 ≠ 0 then 'r' else '-',
   if code &&& 2 ≠ 0 then 'w' else '-',
   if code &&& 4 ≠ 0 then 'x' else '-',
   if code &&& 8 ≠ 0 then 'a' else '-',
   if code &&& 16 ≠ 0 then 't' else '-',
   if code &&& 32 ≠ 0 then 'l' else '-']

/-- The `strtok_r` delimiter set `" \t\n"`. -/
def isDelim (c : Char) : Bool := c = ' ' || c = '\t' || c = '\n'

/-- Worker for `splitFields` with the field accumulated in reverse. -/
def splitFieldsAux : List Char → List Char → List (List Char)
  | [], acc => if acc.isEmpty then [] else [acc.reverse]
  | c :: cs, acc =>
    if isDelim c then
      if acc.isEmpty then splitFieldsAux cs []
      else acc.reverse :: splitFieldsAux cs []
    else splitFieldsAux cs (c :: acc)

/-- Successive `strtok_r(.., " \t\n", ..)` calls: the nonempty fields of a
buffer in order. -/
def splitFields (s : List Char) : List (List Char) := splitFieldsAux s []

/-- One `fgets` call on a buffer that can hold `n` characters plus the NUL:
consume up to `n` characters, stopping after a newline.  Returns the chunk
and the unread remainder. -/
def fgetsChunk : Nat → List Char → List Char × List Char
  | _, [] => ([], [])
  | 0, s => ([], s)
  | n + 1, c :: cs =>
    if c = '\n' then ([c], cs)
    else
      let p := fgetsChunk n cs
      (c :: p.1, p.2)

/-- Worker for `readLines`, structurally recursive on a fuel argument so
that it evaluates inside the kernel; each chunk consumes at least one
character, so fuel equal to the input length is always enough
(`readLinesFuel_eq`). -/
def readLinesFuel (k : Nat) : Nat → List Char → List (List Char)
  | 0, _ => []
  | _, [] => []
  | fuel + 1, c :: cs =>
    (fgetsChunk (k + 1) (c :: cs)).1 ::
      readLinesFuel k fuel (fgetsChunk (k + 1) (c :: cs)).2

/-- The sequence of chunks a loop of `fgets` calls produces, each chunk at
most `k + 1` characters. -/
def readLines (k : Nat) (s : List Char) : List (List Char) :=
  readLinesFuel k s.length s

/-- Replace the element at an index (used for in-place update of a subject
label's rule list; out-of-range indices leave the list unchanged). -/
def listModify (f : α → α) : Nat → List α → List α
  | _, [] => []
  | 0, a :: as => f a :: as
  | n + 1, a :: as => a :: listModify f n as

/-- struct smack_rule (the `next_rule` link becomes list structure). -/
structure SmackRule where
  allow_code : Nat
  deny_code : Nat
  object_id : Nat
deriving DecidableEq

/-- struct smack_label: the interned string plus its rule list in insertion
order (`first_rule`/`last_rule` and append-at-tail become a plain list; the
`len` field always equals `label.length` and the `id` field always equals the
index in the engine's label array, so neither is stored separately). -/
structure SmackLabel where
  label : List Char
  rules : List SmackRule
deriving DecidableEq

instance : Inhabited SmackLabel := ⟨⟨[], []⟩⟩

/-- struct smack_accesses.  The `labels` array is the id-indexed list of
interned labels; `labels_cnt` is its length.  The hash-bucket index
(`label_hash`) only accelerates the exact-string lookup `is_label_known`
(identical strings always land in the same bucket and a bucket's chain is
searched by full `strcmp`), so lookup is modelled as exact search of the
label list in id order, which returns the same label. -/
structure SmackAccesses where
  has_long : Bool
  labels : List SmackLabel
deriving DecidableEq

/-- smack_accesses_new: zero-initialised engine. -/
def emptyAccesses : SmackAccesses := ⟨false, []⟩

/-- The interned label strings of an engine, in id order. -/
def labelStrings (e : SmackAccesses) : List (List Char) := e.labels.map (·.label)

/-- First index holding a given label string (the `is_label_known` search). -/
def lookupIdx : List SmackLabel → List Char → Option Nat
  | [], _ => none
  | l :: rest, s =>
    if l.label = s then some 0 else (lookupIdx rest s).map (· + 1)

/-- `label_add`: capacity check, syntax validation, dedup lookup, append on
miss.  Returns the (possibly extended) engine and, on success, the label's
id and length. -/
def label_add (h : SmackAccesses) (label : List Char) :
    SmackAccesses × Option (Nat × Nat) :=
  if h.labels.length = MAX_LABELS_CNT then (h, none)
  else
    match get_label label with
    | none => (h, none)
    | some len =>
      match lookupIdx h.labels label with
      | some i => (h, some (i, len))
      | none =>
        ({ h with labels := h.labels ++ [⟨label, []⟩] }, some (h.labels.length, len))

/-- Append a rule to the subject label at index `sid`. -/
def addRuleAt (h : SmackAccesses) (sid : Nat) (r : SmackRule) : SmackAccesses :=
  { h with labels := listModify (fun l => { l with rules := l.rules ++ [r] }) sid h.labels }

/-- `accesses_add`: intern both labels, update `has_long`, parse the allow
string, parse the deny string or derive it as the complement of allow, and
append the rule to the subject's list.  The C complement
`ACCESS_TYPE_ALL & ~allow_code` equals `ACCESS_TYPE_ALL ^^^ allow_code`
because parsed codes are below 64 (`str_to_access_code_lt`).  The boolean
result is `true` on success (C returns 0) and `false` on failure (C returns
-1); note that labels interned before a later failure stay interned, exactly
as in the C code. -/
def accesses_add (h : SmackAccesses) (subject object allow : List Char)
    (deny : Option (List Char)) : SmackAccesses × Bool :=
  match label_add h subject with
  | (h1, none) => (h1, false)
  | (h1, some (sid, slen)) =>
    match label_add h1 object with
    | (h2, none) => (h2, false)
    | (h2, some (oid, olen)) =>
      let h3 := if SHORT_LABEL_LEN < slen || SHORT_LABEL_LEN < olen
                then { h2 with has_long := true } else h2
      match str_to_access_code allow with
      | none => (h3, false)
      | some ac =>
        match deny with
        | some d =>
          match str_to_access_code d with
          | none => (h3, false)
          | some dc => (addRuleAt h3 sid ⟨ac, dc, oid⟩, true)
        | none => (addRuleAt h3 sid ⟨ac, ACCESS_TYPE_ALL ^^^ ac, oid⟩, true)

/-- smack_accesses_add -/
def smack_accesses_add (h : SmackAccesses) (subject object access : List Char) :
    SmackAccesses × Bool :=
  accesses_add h subject object access none

/-- smack_accesses_add_modify -/
def smack_accesses_add_modify (h : SmackAccesses)
    (subject object allow deny : List Char) : SmackAccesses × Bool :=
  accesses_add h subject object allow (some deny)

/-- The load-vs-modify classification used by `accesses_print`:
a rule is modify-style iff `allow | deny != ACCESS_TYPE_ALL`. -/
def isModifyStyle (r : SmackRule) : Bool :=
  (r.allow_code ||| r.deny_code) ≠ ACCESS_TYPE_ALL

/-- The label string stored under an id (`handle->labels[id]->label`; ids are
always in range for engines built through the interface). -/
def labelOfId (e : SmackAccesses) (i : Nat) : List Char :=
  (e.labels.getD i default).label

/-- A record written by `accesses_print`: either a 3-field record written to
the load descriptor or a 4-field record written to the change-rule
descriptor. -/
inductive OutRec where
  | load (subj obj acc : List Char)
  | modify (subj obj acc den : List Char)
deriving DecidableEq

/-- The (subject, object) pair of a record. -/
def outRecSubjObj : OutRec → List Char × List Char
  | .load s o _ => (s, o)
  | .modify s o _ _ => (s, o)

/-- The body of the rule loop of `accesses_print` for one rule: compute the
allow string (zeroed in clear mode), then either require the change-rule
descriptor and format a 4-field record, or format a 3-field record for the
load descriptor.  `none` models the immediate -1 return when a modify-style
rule meets an absent change-rule descriptor. -/
def emitRule (e : SmackAccesses) (subj : List Char) (r : SmackRule)
    (clear change_ok : Bool) : Option OutRec :=
  let obj := labelOfId e r.object_id
  let allow_str := access_code_to_str (if clear then 0 else r.allow_code)
  if isModifyStyle r && !clear then
    if !change_ok then none
    else some (.modify subj obj allow_str (access_code_to_str r.deny_code))
  else some (.load subj obj allow_str)

/-- Inner loop of `accesses_print` over one subject's rules.  On failure the
records already written stay written and the boolean is `false`. -/
def printRules (e : SmackAccesses) (subj : List Char) (clear change_ok : Bool) :
    List SmackRule → List OutRec × Bool
  | [] => ([], true)
  | r :: rest =>
    match emitRule e subj r clear change_ok with
    | none => ([], false)
    | some rec1 =>
      let q := printRules e subj clear change_ok rest
      (rec1 :: q.1, q.2)

/-- Outer loop of `accesses_print` over all labels in id order. -/
def printLabels (e : SmackAccesses) (clear change_ok : Bool) :
    List SmackLabel → List OutRec × Bool
  | [] => ([], true)
  | l :: ls =>
    let p := printRules e l.label clear change_ok l.rules
    if p.2 then
      let q := printLabels e clear change_ok ls
      (p.1 ++ q.1, q.2)
    else (p.1, false)

/-- `accesses_print` without the byte-level rendering (the rendering is
`renderRec`): fails outright when the negotiated format is short but the
engine holds a long label, otherwise walks every label's rule list. -/
def accesses_print (e : SmackAccesses) (clear change_ok use_long : Bool) :
    List OutRec × Bool :=
  if !use_long && e.has_long then ([], false)
  else printLabels e clear change_ok e.labels

/-- Left-justified space padding to a field width (`%-23s`). -/
def leftJust (w : Nat) (s : List Char) : List Char :=
  s ++ List.replicate (w - s.length) ' '

/-- `%5.5s`: truncate to 5 characters, then right-justify in 5 columns. -/
def fmtShortAcc (s : List Char) : List Char :=
  List.replicate (5 - (s.take 5).length) ' ' ++ s.take 5

/-- The bytes `accesses_print` writes for one record: long format
`"%s %s %s"`, short format `"%-23s %-23s %5.5s"`, modify format
`"%s %s %s %s"` (always long-style), plus the optional trailing newline. -/
def renderRec (use_long add_lf : Bool) : OutRec → List Char
  | .load s o a =>
    (if use_long then s ++ ' ' :: (o ++ ' ' :: a)
     else leftJust 23 s ++ ' ' :: (leftJust 23 o ++ ' ' :: fmtShortAcc a)) ++
    (if add_lf then ['\n'] else [])
  | .modify s o a d =>
    (s ++ ' ' :: (o ++ ' ' :: (a ++ ' ' :: (d)))) ++
    (if add_lf then ['\n'] else [])

/-- smack_accesses_save: `accesses_print(handle, 0, fd, fd, 1, 1)` — the same
descriptor serves as load and change-rule target, long format, newline after
every record.  Returns the written bytes, or `none` on failure. -/
def smack_accesses_save (e : SmackAccesses) : Option (List Char) :=
  let p := accesses_print e false true true
  if p.2 then some ((p.1.map (renderRec true true)).flatten) else none

/-- `open_smackfs_file`: prefer the long-named interface; when it is absent
fall back to the short-named one and clear `use_long`; fail when neither
exists.  Availability booleans stand for the two `openat` outcomes. -/
def open_smackfs_file (longAvail shortAvail : Bool) : Option Bool :=
  if longAvail then some true
  else if shortAvail then some false
  else none

/-- `accesses_apply`: negotiate the load interface, tolerate an absent
change-rule interface, then print.  Returns the records pushed to the kernel
and the success flag. -/
def accesses_apply (e : SmackAccesses) (clear : Bool)
    (longAvail shortAvail changeAvail : Bool) : List OutRec × Bool :=
  match open_smackfs_file longAvail shortAvail with
  | none => ([], false)
  | some use_long => accesses_print e clear changeAvail use_long

/-- smack_accesses_apply -/
def smack_accesses_apply (e : SmackAccesses)
    (longAvail shortAvail changeAvail : Bool) : List OutRec × Bool :=
  accesses_apply e false longAvail shortAvail changeAvail

/-- smack_accesses_clear -/
def smack_accesses_clear (e : SmackAccesses)
    (longAvail shortAvail changeAvail : Bool) : List OutRec × Bool :=
  accesses_apply e true longAvail shortAvail changeAvail

/-- Per-chunk body of `smack_accesses_add_from_file`: skip a chunk that is
exactly the newline, tokenize, require exactly 3 or 4 fields, and dispatch to
plain add or add-modify; any failure aborts the whole ingestion (keeping the
entries already added). -/
def accesses_from_chunks (h : SmackAccesses) : List (List Char) → SmackAccesses × Bool
  | [] => (h, true)
  | ch :: rest =>
    if ch = ['\n'] then accesses_from_chunks h rest
    else
      match splitFields ch with
      | [s, o, a] =>
        match accesses_add h s o a none with
        | (h1, true) => accesses_from_chunks h1 rest
        | (h1, false) => (h1, false)
      | [s, o, a, d] =>
        match accesses_add h s o a (some d) with
        | (h1, true) => accesses_from_chunks h1 rest
        | (h1, false) => (h1, false)
      | _ => (h, false)

/-- smack_accesses_add_from_file: `fgets` reads at most LOAD_LEN = 525
characters per call (buffer of LOAD_LEN + 1). -/
def smack_accesses_add_from_file (h : SmackAccesses) (input : List Char) :
    SmackAccesses × Bool :=
  accesses_from_chunks h (readLines (LOAD_LEN - 1) input)

/-- The `isspace` set `strtol` skips. -/
def isSpaceC (c : Char) : Bool :=
  c = ' ' || c = '\t' || c = '\n' || c = Char.ofNat 11 || c = Char.ofNat 12 || c = Char.ofNat 13

/-- Accumulate decimal digits. -/
def digitsNat : List Char → Nat → Nat
  | [], acc => acc
  | c :: cs, acc => digitsNat cs (acc * 10 + (c.toNat - 48))

/-- `strtol(s, NULL, 10)` under the `errno = 0; ...; if (errno)` pattern the
CIPSO parser uses: skip leading white space, take an optional sign and the
longest run of digits (an empty run yields 0 without error — `strtol` does
not flag trailing garbage or a missing number), and fail only on overflow of
a 64-bit long (ERANGE). -/
def strtol10 (s : List Char) : Option Int :=
  let s1 := s.dropWhile isSpaceC
  match s1 with
  | '-' :: rest =>
    let v := digitsNat (rest.takeWhile Char.isDigit) 0
    if v ≤ 2 ^ 63 then some (-(v : Int)) else none
  | '+' :: rest =>
    let v := digitsNat (rest.takeWhile Char.isDigit) 0
    if v < 2 ^ 63 then some (v : Int) else none
  | rest =>
    let v := digitsNat (rest.takeWhile Char.isDigit) 0
    if v < 2 ^ 63 then some (v : Int) else none

/-- The declared element count of the `cats` array in `struct cipso_mapping`:
the C declaration is `int cats[CAT_MAX_VALUE]`, i.e. 63 elements. -/
def cats_decl_len : Nat := CAT_MAX_VALUE

/-- struct cipso_mapping.  `catWrites` records every store
`mapping->cats[i] = val` performed while the mapping was parsed, as the pair
(index, stored value); `ncats` and `level` are the other fields.  Keeping the
store trace (instead of a fixed array) lets the development state exactly
which indices the code writes — the C array bound is `cats_decl_len`. -/
structure cipso_mapping where
  label : List Char
  catWrites : List (Nat × Int)
  ncats : Nat
  level : Int
deriving DecidableEq

instance : Inhabited cipso_mapping := ⟨⟨[], [], 0, 0⟩⟩

/-- struct smack_cipso: long-label flag plus the mapping list in insertion
order. -/
structure smack_cipso where
  has_long : Bool
  mappings : List cipso_mapping
deriving DecidableEq

/-- smack_cipso_new -/
def emptyCipso : smack_cipso := ⟨false, []⟩

/-- The category loop of `smack_cipso_add_from_file`:
`for (i = 0; i < CAT_MAX_COUNT && cat != NULL; i++)` — parse each token with
`strtol`, range-check 0..CAT_MAX_VALUE, store `cats[i] = val`.  Returns the
store trace and the final `i` (which becomes `ncats`), or `none` when a token
fails. -/
def catLoop : List (List Char) → Nat → Option (List (Nat × Int) × Nat)
  | [], i => some ([], i)
  | t :: ts, i =>
    if i < CAT_MAX_COUNT then
      match strtol10 t with
      | none => none
      | some v =>
        if v < 0 ∨ (CAT_MAX_VALUE : Int) < v then none
        else
          match catLoop ts (i + 1) with
          | none => none
          | some (ws, n) => some ((i, v) :: ws, n)
    else some ([], i)

/-- One iteration of the `fgets` loop of `smack_cipso_add_from_file`:
tokenize the buffer, require a level token, validate and copy the label
(setting the long flag — note the flag stays set even if the line errors out
later, as in the C code), parse and range-check the level, run the category
loop, and append the mapping. -/
def cipso_add_line (c : smack_cipso) (line : List Char) : smack_cipso × Bool :=
  match splitFields line with
  | label :: level :: cats =>
    match get_label label with
    | none => (c, false)
    | some len =>
      let c1 := if SHORT_LABEL_LEN < len then { c with has_long := true } else c
      match strtol10 level with
      | none => (c1, false)
      | some lv =>
        if lv < 0 ∨ (LEVEL_MAX : Int) < lv then (c1, false)
        else
          match catLoop cats 0 with
          | none => (c1, false)
          | some (ws, n) =>
            ({ c1 with mappings := c1.mappings ++ [⟨label, ws, n, lv⟩] }, true)
  | _ => (c, false)

/-- Chunk loop of `smack_cipso_add_from_file` (no blank-line skip exists on
this path: a lone newline chunk tokenizes to no fields and fails). -/
def cipso_from_chunks (c : smack_cipso) : List (List Char) → smack_cipso × Bool
  | [] => (c, true)
  | ch :: rest =>
    match cipso_add_line c ch with
    | (c1, true) => cipso_from_chunks c1 rest
    | (c1, false) => (c1, false)

/-- smack_cipso_add_from_file: `fgets(buf, BUF_SIZE)` reads at most
BUF_SIZE - 1 = 511 characters per call. -/
def smack_cipso_add_from_file (c : smack_cipso) (input : List Char) :
    smack_cipso × Bool :=
  cipso_from_chunks c (readLines (BUF_SIZE - 2) input)

/-! ## Derived observers used to state the claims -/

/-- The rules of an engine flattened in traversal order, each paired with its
subject label string — exactly the order the nested loops of
`accesses_print` visit them. -/
def ruleStream (e : SmackAccesses) : List (List Char × SmackRule) :=
  (e.labels.map (fun l => l.rules.map (fun r => (l.label, r)))).flatten

/-- The entry a rule contributes to a subject's rule sequence:
(object string, allow mask, deny mask). -/
def ruleEntry (e : SmackAccesses) (r : SmackRule) : List Char × Nat × Nat :=
  (labelOfId e r.object_id, r.allow_code, r.deny_code)

/-- The rule sequence attached to a subject label string, in insertion
order, with object ids resolved to strings (empty when the string is not a
subject). -/
def rulesOfSubject (e : SmackAccesses) (S : List Char) : List (List Char × Nat × Nat) :=
  ((e.labels.filter (fun l => l.label = S)).map (fun l => l.rules.map (ruleEntry e))).flatten

/-- Save an engine and ingest the produced text into a fresh engine. -/
def roundTrip (e : SmackAccesses) : SmackAccesses × Bool :=
  smack_accesses_add_from_file emptyAccesses ((smack_accesses_save e).getD [])

/-- Characters the access-code parser accepts. -/
def allowedAccChar (c : Char) : Bool := (char_to_access_bit c).isSome

/-- The bit a single accepted character contributes. -/
def bitOf (c : Char) : Nat := (char_to_access_bit c).getD 0

/-- The canonical lowercase rendering of a permission string, as the claim
words it: position i shows the i-th permission letter (lowercase) exactly
when that letter occurs in the string in either case, else a dash. -/
def canonicalLowercase (s : List Char) : List Char :=
  [if s.any (fun c => c = 'r' || c = 'R') then 'r' else '-',
   if s.any (fun c => c = 'w' || c = 'W') then 'w' else '-',
   if s.any (fun c => c = 'x' || c = 'X') then 'x' else '-',
   if s.any (fun c => c = 'a' || c = 'A') then 'a' else '-',
   if s.any (fun c => c = 't' || c = 'T') then 't' else '-',
   if s.any (fun c => c = 'l' || c = 'L') then 'l' else '-']

/-- The label syntax exactly as the spec words it: 1..255 bytes of printable
ASCII (codes 33..126, so excluding space), excluding slash, double quote,
backslash and single quote, and not starting with a dash. -/
def SpecValidLabel (s : List Char) : Prop :=
  1 ≤ s.length ∧ s.length ≤ 255 ∧
  (∀ c ∈ s, 33 ≤ c.toNat ∧ c.toNat ≤ 126 ∧
    c ≠ '/' ∧ c ≠ quoteChar ∧ c ≠ backslashChar ∧ c ≠ apostropheChar) ∧
  s.head? ≠ some '-'

/-- The `has_long` invariant the spec states for the engine: the flag is set
exactly when some interned label is longer than SHORT_LABEL_LEN bytes. -/
def HasLongInv (e : SmackAccesses) : Prop :=
  e.has_long = true ↔ ∃ s ∈ labelStrings e, SHORT_LABEL_LEN < s.length

/-- Linear form of the two nested loops of `accesses_print`
(`printLabels_eq_printStream` shows they agree); used to state traversal
properties. -/
def printStream (e : SmackAccesses) (clear change_ok : Bool) :
    List (List Char × SmackRule) → List OutRec × Bool
  | [] => ([], true)
  | p :: rest =>
    match emitRule e p.1 p.2 clear change_ok with
    | none => ([], false)
    | some rec1 =>
      let q := printStream e clear change_ok rest
      (rec1 :: q.1, q.2)

/-- Structural well-formedness, true of every engine built through the
interface: interned label strings are distinct and valid, object ids are in
range and stored codes fit in 6 bits. -/
def engineInv (e : SmackAccesses) : Prop :=
  (labelStrings e).Nodup ∧
  (∀ l ∈ e.labels, (get_label l.label).isSome = true) ∧
  (∀ l ∈ e.labels, ∀ r ∈ l.rules,
    r.object_id < e.labels.length ∧ r.allow_code < 64 ∧ r.deny_code < 64)

/-- The fields of one saved rule line. -/
structure TextOp where
  subj : List Char
  obj : List Char
  acc : List Char
  den : Option (List Char)
deriving DecidableEq

/-- The text a save record renders to (long format, without the newline). -/
def opLine (op : TextOp) : List Char :=
  match op.den with
  | none => op.subj ++ ' ' :: (op.obj ++ ' ' :: op.acc)
  | some d => op.subj ++ ' ' :: (op.obj ++ ' ' :: (op.acc ++ ' ' :: d))

/-- The op one traversed rule contributes to the save output. -/
def opOfPair (e : SmackAccesses) (p : List Char × SmackRule) : TextOp :=
  { subj := p.1
    obj := labelOfId e p.2.object_id
    acc := access_code_to_str p.2.allow_code
    den := if isModifyStyle p.2 then some (access_code_to_str p.2.deny_code)
           else none }

/-- All ops of an engine's save output, in traversal order. -/
def opsOf (e : SmackAccesses) : List TextOp := (ruleStream e).map (opOfPair e)

/-- Replay a list of text ops through `accesses_add` (what re-ingesting the
corresponding lines does). -/
def runOps (h : SmackAccesses) : List TextOp → SmackAccesses × Bool
  | [] => (h, true)
  | op :: rest =>
    match accesses_add h op.subj op.obj op.acc op.den with
    | (h1, true) => runOps h1 rest
    | (h1, false) => (h1, false)

/-- The (object, allow, deny) entry re-ingesting one op appends to its
subject's rule sequence. -/
def opEffect (op : TextOp) : List Char × Nat × Nat :=
  (op.obj, (str_to_access_code op.acc).getD 0,
    match op.den with
    | none => ACCESS_TYPE_ALL ^^^ (str_to_access_code op.acc).getD 0
    | some d => (str_to_access_code d).getD 0)

/-- The action `smack_accesses_add_from_file` performs for one tokenized
line (the non-blank case of `accesses_from_chunks`). -/
def lineStep (h : SmackAccesses) (line : List Char) : SmackAccesses × Bool :=
  match splitFields line with
  | [s, o, a] => accesses_add h s o a none
  | [s, o, a, d] => accesses_add h s o a (some d)
  | _ => (h, false)

/-! ## Concrete inputs used by the closed theorems -/

/-- A CIPSO line with a valid label, a valid level and 64 valid categories. -/
def cipsoOobInput : List Char :=
  ('x' :: ' ' :: '0' :: (List.replicate 64 [' ', '0']).flatten) ++ ['\n']

/-- A CIPSO line with a valid label, a valid level and 245 valid two-digit
category tokens; its 739 characters exceed one 511-character fgets read. -/
def cipsoLongLine : List Char :=
  ('x' :: ' ' :: '0' :: (List.replicate 245 [' ', '1', '0']).flatten) ++ ['\n']

/-- A syntactically valid 24-byte label (one byte beyond SHORT_LABEL_LEN). -/
def longLabel24 : List Char := "ABCDEFGHIJKLMNOPQRSTUVWX".toList

/-- An engine holding one rule whose deny mask overlaps its allow mask while
`allow | deny = ACCESS_TYPE_ALL` (added via the modify interface). -/
def overlapEngine : SmackAccesses :=
  (smack_accesses_add_modify emptyAccesses
    "a".toList "b".toList "rw".toList "rwxatl".toList).1

/-- An engine with one load-style rule and one modify-style rule. -/
def modifyEngine : SmackAccesses :=
  (smack_accesses_add_modify
    ((smack_accesses_add emptyAccesses "a".toList "b".toList "rw".toList).1)
    "c".toList "d".toList "r".toList "w".toList).1

/-- An engine whose sole rule carries a 24-byte subject label. -/
def longEngine : SmackAccesses :=
  (smack_accesses_add emptyAccesses longLabel24 "b".toList "r".toList).1

/-- A CIPSO line with a valid label, a valid level and 241 valid categories,
short enough for a single buffer read. -/
def cipsoCapLine : List Char :=
  'x' :: ' ' :: '0' :: (List.replicate 241 [' ', '0']).flatten

/-! ## Chunk-reading lemmas -/

theorem fgetsChunk_rest_le : ∀ (n : Nat) (s : List Char),
    (fgetsChunk n s).2.length ≤ s.length := by
  intro n
  induction n with
  | zero => intro s; cases s <;> simp [fgetsChunk]
  | succ n ih =>
    intro s
    cases s with
    | nil => simp [fgetsChunk]
    | cons c cs =>
      by_cases h : c = '\n'
      · simp [fgetsChunk, h]
      · simpa [fgetsChunk, h] using Nat.le_succ_of_le (ih cs)

theorem fgetsChunk_rest_lt (n : Nat) (c : Char) (cs : List Char) :
    (fgetsChunk (n + 1) (c :: cs)).2.length < (c :: cs).length := by
  by_cases h : c = '\n'
  · simp [fgetsChunk, h]
  · simpa [fgetsChunk, h] using Nat.lt_succ_of_le (fgetsChunk_rest_le n cs)

theorem readLinesFuel_congr (k : Nat) : ∀ (f₁ f₂ : Nat) (s : List Char),
    s.length ≤ f₁ → s.length ≤ f₂ →
    readLinesFuel k f₁ s = readLinesFuel k f₂ s := by
  intro f₁
  induction f₁ with
  | zero =>
    intro f₂ s hs _
    have : s = [] := List.length_eq_zero.mp (Nat.le_zero.mp hs)
    subst this
    cases f₂ <;> rfl
  | succ f₁ ih =>
    intro f₂ s hs hs2
    cases s with
    | nil => cases f₂ <;> rfl
    | cons c cs =>
      cases f₂ with
      | zero => simp at hs2
      | succ g =>
        have hrest := fgetsChunk_rest_lt k c cs
        simp only [List.length_cons] at hs hs2 hrest
        simp only [readLinesFuel]
        rw [ih g _ (by omega) (by omega)]

/-- Unfolding equation for `readLines` on a nonempty input. -/
theorem readLines_cons (k : Nat) (c : Char) (cs : List Char) :
    readLines k (c :: cs) =
      (fgetsChunk (k + 1) (c :: cs)).1 ::
        readLines k (fgetsChunk (k + 1) (c :: cs)).2 := by
  have hrest := fgetsChunk_rest_lt k c cs
  simp only [List.length_cons] at hrest
  simp only [readLines, List.length_cons, readLinesFuel]
  exact congrArg _ (readLinesFuel_congr k cs.length _ _ (by omega) (by omega))

/-! ## Access-code codec lemmas -/

theorem str_loop_all_allowed : ∀ (s : List Char) (code : Nat),
    (∀ c ∈ s, allowedAccChar c = true) →
    str_to_access_code_loop s code =
      some (s.foldl (fun a c => a ||| bitOf c) code) := by
  intro s
  induction s with
  | nil => intro code _; rfl
  | cons c cs ih =>
    intro code hall
    have hc : allowedAccChar c = true := hall c (List.mem_cons_self c cs)
    simp only [allowedAccChar, Option.isSome_iff_exists] at hc
    obtain ⟨b, hb⟩ := hc
    simp only [str_to_access_code_loop, hb, List.foldl_cons, bitOf, hb,
      Option.getD_some]
    exact ih _ (fun d hd => hall d (List.mem_cons_of_mem c hd))

theorem str_loop_bad_char : ∀ (s : List Char) (code : Nat),
    (∃ c ∈ s, allowedAccChar c = false) →
    str_to_access_code_loop s code = none := by
  intro s
  induction s with
  | nil => intro code h; simp at h
  | cons c cs ih =>
    intro code h
    by_cases hc : allowedAccChar c = true
    · simp only [allowedAccChar, Option.isSome_iff_exists] at hc
      obtain ⟨b, hb⟩ := hc
      obtain ⟨d, hd, hdbad⟩ := h
      rcases List.mem_cons.mp hd with rfl | hd2
      · simp [allowedAccChar, hb] at hdbad
      · simp only [str_to_access_code_loop, hb]
        exact ih _ ⟨d, hd2, hdbad⟩
    · have : char_to_access_bit c = none := by
        simp only [allowedAccChar, Bool.not_eq_true] at hc
        exact Option.not_isSome_iff_eq_none.mp (by simp [hc])
      simp [str_to_access_code_loop, this]

theorem and_two_pow_ne_zero_iff (n j : Nat) :
    (n &&& 2 ^ j ≠ 0) ↔ n.testBit j = true := by
  constructor
  · intro h
    by_contra hb
    apply h
    apply Nat.zero_of_testBit_eq_false
    intro i
    rw [Nat.testBit_and]
    simp only [Bool.not_eq_true] at hb
    by_cases hij : i = j
    · subst hij; simp [hb]
    · simp only [Nat.testBit_two_pow]
      simp [show ¬j = i from fun hh => hij hh.symm]
  · intro h hz
    have := congrArg (fun x => Nat.testBit x j) hz
    simp only [Nat.testBit_and, h, Nat.testBit_two_pow, Nat.zero_testBit,
      Bool.true_and, decide_eq_true_eq] at this
    simp at this

theorem foldl_or_testBit : ∀ (s : List Char) (init : Nat) (j : Nat),
    (s.foldl (fun a c => a ||| bitOf c) init).testBit j =
      (init.testBit j || s.any (fun c => (bitOf c).testBit j)) := by
  intro s
  induction s with
  | nil => intro init j; simp
  | cons c cs ih =>
    intro init j
    simp only [List.foldl_cons, List.any_cons]
    rw [ih, Nat.testBit_or]
    cases init.testBit j <;> cases (bitOf c).testBit j <;> simp

theorem allowedAccChar_mem (c : Char) (h : allowedAccChar c = true) :
    c ∈ ['r', 'R', 'w', 'W', 'x', 'X', 'a', 'A', 't', 'T', 'l', 'L', '-'] := by
  unfold allowedAccChar char_to_access_bit at h
  split_ifs at h with h1 h2 h3 h4 h5 h6 h7
  · simp only [Bool.or_eq_true, decide_eq_true_eq] at h1
    rcases h1 with rfl | rfl <;> decide
  · simp only [Bool.or_eq_true, decide_eq_true_eq] at h2
    rcases h2 with rfl | rfl <;> decide
  · simp only [Bool.or_eq_true, decide_eq_true_eq] at h3
    rcases h3 with rfl | rfl <;> decide
  · simp only [Bool.or_eq_true, decide_eq_true_eq] at h4
    rcases h4 with rfl | rfl <;> decide
  · simp only [Bool.or_eq_true, decide_eq_true_eq] at h5
    rcases h5 with rfl | rfl <;> decide
  · simp only [Bool.or_eq_true, decide_eq_true_eq] at h6
    rcases h6 with rfl | rfl <;> decide
  · subst h7; decide
  · simp at h

theorem bitOf_testBit_iff (c : Char) (h : allowedAccChar c = true) :
    ((bitOf c).testBit 0 = (c = 'r' || c = 'R')) ∧
    ((bitOf c).testBit 1 = (c = 'w' || c = 'W')) ∧
    ((bitOf c).testBit 2 = (c = 'x' || c = 'X')) ∧
    ((bitOf c).testBit 3 = (c = 'a' || c = 'A')) ∧
    ((bitOf c).testBit 4 = (c = 't' || c = 'T')) ∧
    ((bitOf c).testBit 5 = (c = 'l' || c = 'L')) := by
  have hm := allowedAccChar_mem c h
  fin_cases hm <;> decide

/-- C6: for every 6-character string over the permission alphabet
r, w, x, a, t, l, dash (either case), parsing succeeds and re-rendering the parsed
code gives the canonical lowercase fixed-order form of the string; and the
parser rejects any string containing a character outside that alphabet. -/
theorem access_codec_roundtrip :
    (∀ s : List Char, s.length = 6 → (∀ c ∈ s, allowedAccChar c = true) →
      ∃ code, str_to_access_code s = some code ∧
        access_code_to_str code = canonicalLowercase s) ∧
    (∀ s : List Char, (∃ c ∈ s, allowedAccChar c = false) →
      str_to_access_code s = none) := by
  constructor
  · intro s _ hall
    refine ⟨s.foldl (fun a c => a ||| bitOf c) 0, str_loop_all_allowed s 0 hall, ?_⟩
    have hbit : ∀ j : Nat,
        (s.foldl (fun a c => a ||| bitOf c) 0).testBit j =
          s.any (fun c => (bitOf c).testBit j) := by
      intro j
      rw [foldl_or_testBit]
      simp [Nat.zero_testBit]
    have hiff : ∀ (j m : Nat) (f : Char → Bool), m = 2 ^ j →
        (∀ c ∈ s, (bitOf c).testBit j = f c) →
        (((s.foldl (fun a c => a ||| bitOf c) 0) &&& m ≠ 0) ↔ (s.any f = true)) := by
      intro j m f hm hf
      subst hm
      rw [and_two_pow_ne_zero_iff, hbit]
      constructor
      · intro h
        rcases List.any_eq_true.mp h with ⟨c, hc, hcb⟩
        exact List.any_eq_true.mpr ⟨c, hc, by rw [← hf c hc]; exact hcb⟩
      · intro h
        rcases List.any_eq_true.mp h with ⟨c, hc, hcb⟩
        exact List.any_eq_true.mpr ⟨c, hc, by rw [hf c hc]; exact hcb⟩
    have e1 := hiff 0 1 _ (by norm_num) (fun c hc => (bitOf_testBit_iff c (hall c hc)).1)
    have e2 := hiff 1 2 _ (by norm_num) (fun c hc => (bitOf_testBit_iff c (hall c hc)).2.1)
    have e3 := hiff 2 4 _ (by norm_num) (fun c hc => (bitOf_testBit_iff c (hall c hc)).2.2.1)
    have e4 := hiff 3 8 _ (by norm_num) (fun c hc => (bitOf_testBit_iff c (hall c hc)).2.2.2.1)
    have e5 := hiff 4 16 _ (by norm_num) (fun c hc => (bitOf_testBit_iff c (hall c hc)).2.2.2.2.1)
    have e6 := hiff 5 32 _ (by norm_num) (fun c hc => (bitOf_testBit_iff c (hall c hc)).2.2.2.2.2)
    unfold access_code_to_str canonicalLowercase
    simp only [List.cons.injEq, and_true]
    exact ⟨if_congr e1 rfl rfl, if_congr e2 rfl rfl, if_congr e3 rfl rfl,
           if_congr e4 rfl rfl, if_congr e5 rfl rfl, if_congr e6 rfl rfl⟩
  · intro s h
    exact str_loop_bad_char s 0 h

/-! ## Label validation and label table lemmas -/

theorem get_label_loop_eq_some : ∀ (s : List Char) (i n : Nat),
    get_label_loop s i = some n ↔
      (n = i + s.length ∧ i + s.length ≤ SMACK_LABEL_LEN ∧
        ∀ c ∈ s, validLabelChar c = true) := by
  intro s
  induction s with
  | nil =>
    intro i n
    simp only [get_label_loop, List.length_nil, Nat.add_zero, List.not_mem_nil,
      false_implies, implies_true, and_true]
    by_cases hi : i < SMACK_LABEL_LEN + 1
    · simp only [if_pos hi, Option.some.injEq]
      constructor
      · rintro rfl; exact ⟨rfl, by omega⟩
      · rintro ⟨rfl, _⟩; rfl
    · simp only [if_neg hi]
      constructor
      · rintro ⟨⟩
      · rintro ⟨_, hb⟩; omega
  | cons c cs ih =>
    intro i n
    simp only [get_label_loop, List.length_cons, List.mem_cons]
    by_cases hi : i < SMACK_LABEL_LEN + 1
    · simp only [if_pos hi]
      by_cases hc : validLabelChar c = true
      · simp only [if_pos hc, ih]
        constructor
        · rintro ⟨rfl, hb, hall⟩
          exact ⟨by omega, by omega, fun d hd => by
            rcases hd with rfl | hd2
            · exact hc
            · exact hall d hd2⟩
        · rintro ⟨rfl, hb, hall⟩
          exact ⟨by omega, by omega, fun d hd => hall d (Or.inr hd)⟩
      · simp only [if_neg hc]
        constructor
        · rintro ⟨⟩
        · rintro ⟨_, _, hall⟩
          exact absurd (hall c (Or.inl rfl)) hc
    · simp only [if_neg hi]
      constructor
      · rintro ⟨⟩
      · rintro ⟨_, hb, _⟩
        omega

theorem get_label_eq_some (s : List Char) (n : Nat) :
    get_label s = some n ↔
      (s ≠ [] ∧ s.head? ≠ some '-' ∧ n = s.length ∧
        s.length ≤ SMACK_LABEL_LEN ∧ ∀ c ∈ s, validLabelChar c = true) := by
  cases s with
  | nil => simp [get_label]
  | cons c cs =>
    simp only [get_label, List.head?_cons, ne_eq, Option.some.injEq]
    by_cases hc : c = '-'
    · subst hc
      simp
    · simp only [if_neg hc, get_label_loop_eq_some, Nat.zero_add]
      constructor
      · rintro ⟨rfl, hb, hall⟩
        exact ⟨by simp, by simp [hc], rfl, hb, hall⟩
      · rintro ⟨_, _, rfl, hb, hall⟩
        exact ⟨rfl, hb, hall⟩

theorem get_label_some_len {s : List Char} {n : Nat}
    (h : get_label s = some n) : n = s.length :=
  ((get_label_eq_some s n).mp h).2.2.1

theorem char_gt_space_iff (c : Char) : (' ' < c) ↔ 33 ≤ c.toNat := by
  rw [Char.lt_def]
  exact ⟨fun h => h, fun h => h⟩

theorem char_le_tilde_iff (c : Char) : (c ≤ '~') ↔ c.toNat ≤ 126 := by
  rw [Char.le_def]
  exact ⟨fun h => h, fun h => h⟩

theorem validLabelChar_iff (c : Char) :
    validLabelChar c = true ↔
      (33 ≤ c.toNat ∧ c.toNat ≤ 126 ∧
        c ≠ '/' ∧ c ≠ quoteChar ∧ c ≠ backslashChar ∧ c ≠ apostropheChar) := by
  unfold validLabelChar
  rw [← char_gt_space_iff, ← char_le_tilde_iff]
  simp only [Bool.and_eq_true, Bool.not_eq_true', Bool.or_eq_false_iff,
    decide_eq_true_eq, decide_eq_false_iff_not, ne_eq]
  tauto

theorem get_label_isSome_iff (s : List Char) :
    (get_label s).isSome = true ↔ SpecValidLabel s := by
  rw [Option.isSome_iff_exists]
  constructor
  · rintro ⟨n, hn⟩
    obtain ⟨hne, hh, rfl, hb, hall⟩ := (get_label_eq_some s n).mp hn
    refine ⟨?_, hb, fun c hc => (validLabelChar_iff c).mp (hall c hc), hh⟩
    cases s with
    | nil => exact absurd rfl hne
    | cons c cs => simp
  · rintro ⟨h1, h2, h3, h4⟩
    refine ⟨s.length, (get_label_eq_some s s.length).mpr
      ⟨?_, h4, rfl, h2, fun c hc => (validLabelChar_iff c).mpr (h3 c hc)⟩⟩
    intro hnil
    subst hnil
    simp at h1

theorem lookupIdx_eq_none : ∀ (ls : List SmackLabel) (s : List Char),
    lookupIdx ls s = none ↔ s ∉ ls.map (·.label) := by
  intro ls
  induction ls with
  | nil => intro s; simp [lookupIdx]
  | cons l rest ih =>
    intro s
    simp only [lookupIdx, List.map_cons, List.mem_cons]
    by_cases hl : l.label = s
    · simp [hl]
    · rw [if_neg hl]
      cases hi : lookupIdx rest s with
      | none =>
        have hmem := (ih s).mp hi
        constructor
        · intro _ hin
          rcases hin with hin | hin
          · exact hl hin.symm
          · exact hmem hin
        · intro _; rfl
      | some i0 =>
        constructor
        · intro hx
          exact Option.noConfusion hx
        · intro hno
          exfalso
          have : ¬lookupIdx rest s = none := by simp [hi]
          exact this ((ih s).mpr (fun hmem => hno (Or.inr hmem)))

theorem lookupIdx_eq_some : ∀ (ls : List SmackLabel) (s : List Char) (i : Nat),
    lookupIdx ls s = some i →
      i < ls.length ∧ (ls.getD i default).label = s ∧
        ∀ j < i, (ls.getD j default).label ≠ s := by
  intro ls
  induction ls with
  | nil => intro s i h; exact absurd h (by simp [lookupIdx])
  | cons l rest ih =>
    intro s i h
    simp only [lookupIdx] at h
    by_cases hl : l.label = s
    · rw [if_pos hl] at h
      cases h
      refine ⟨by simp, by simpa using hl, ?_⟩
      intro j hj
      omega
    · rw [if_neg hl] at h
      cases hi : lookupIdx rest s with
      | none => rw [hi] at h; cases h
      | some i0 =>
        rw [hi] at h
        have h2 : some (i0 + 1) = some i := h
        obtain rfl : i0 + 1 = i := Option.some.inj h2
        obtain ⟨hlt, hat, hfst⟩ := ih s i0 hi
        refine ⟨by simpa using Nat.succ_lt_succ hlt, by simpa using hat, ?_⟩
        intro j hj
        cases j with
        | zero => simpa using hl
        | succ j0 =>
          have := hfst j0 (by omega)
          simpa using this

theorem lookupIdx_append_self (ls : List SmackLabel) (s : List Char)
    (rs : List SmackRule) (h : s ∉ ls.map (·.label)) :
    lookupIdx (ls ++ [⟨s, rs⟩]) s = some ls.length := by
  induction ls with
  | nil => simp [lookupIdx]
  | cons l rest ih =>
    simp only [List.map_cons, List.mem_cons] at h
    push_neg at h
    obtain ⟨h1, h2⟩ := h
    have hne : ¬l.label = s := fun hx => h1 hx.symm
    rw [List.cons_append]
    simp only [lookupIdx, if_neg hne, ih h2, List.length_cons]
    rfl

/-- Full case analysis of `label_add`. -/
theorem label_add_cases (h : SmackAccesses) (s : List Char) :
    (h.labels.length = MAX_LABELS_CNT ∧ label_add h s = (h, none)) ∨
    (h.labels.length ≠ MAX_LABELS_CNT ∧ get_label s = none ∧
      label_add h s = (h, none)) ∨
    (∃ i len, h.labels.length ≠ MAX_LABELS_CNT ∧ get_label s = some len ∧
      lookupIdx h.labels s = some i ∧ label_add h s = (h, some (i, len))) ∨
    (∃ len, h.labels.length ≠ MAX_LABELS_CNT ∧ get_label s = some len ∧
      lookupIdx h.labels s = none ∧
      label_add h s =
        ({ h with labels := h.labels ++ [⟨s, []⟩] }, some (h.labels.length, len))) := by
  by_cases hcap : h.labels.length = MAX_LABELS_CNT
  · left
    exact ⟨hcap, by unfold label_add; rw [if_pos hcap]⟩
  · cases hg : get_label s with
    | none =>
      right; left
      exact ⟨hcap, rfl, by unfold label_add; rw [if_neg hcap, hg]⟩
    | some len =>
      cases hl : lookupIdx h.labels s with
      | some i =>
        right; right; left
        refine ⟨i, len, hcap, rfl, rfl, ?_⟩
        unfold label_add
        rw [if_neg hcap, hg, hl]
      | none =>
        right; right; right
        refine ⟨len, hcap, rfl, rfl, ?_⟩
        unfold label_add
        rw [if_neg hcap, hg, hl]

/-- Common facts about a successful `label_add`. -/
theorem label_add_some_spec {h h₁ : SmackAccesses} {s : List Char} {i len : Nat}
    (heq : label_add h s = (h₁, some (i, len))) :
    i < h₁.labels.length ∧ (h₁.labels.getD i default).label = s ∧
    (∃ ext, h₁.labels = h.labels ++ ext) ∧ h₁.has_long = h.has_long ∧
    get_label s = some len := by
  rcases label_add_cases h s with ⟨_, he⟩ | ⟨_, _, he⟩ |
    ⟨i0, len0, _, hg, hl, he⟩ | ⟨len0, _, hg, hl, he⟩
  · rw [heq] at he
    exact absurd he.symm (by simp [Prod.ext_iff])
  · rw [heq] at he
    exact absurd he.symm (by simp [Prod.ext_iff])
  · rw [heq] at he
    simp only [Prod.mk.injEq, Option.some.injEq] at he
    obtain ⟨rfl, rfl, rfl⟩ := he
    obtain ⟨hlt, hat, _⟩ := lookupIdx_eq_some _ _ _ hl
    exact ⟨hlt, hat, ⟨[], by simp⟩, rfl, hg⟩
  · rw [heq] at he
    simp only [Prod.mk.injEq, Option.some.injEq] at he
    obtain ⟨rfl, rfl, rfl⟩ := he
    refine ⟨by simp, ?_, ⟨[⟨s, []⟩], rfl⟩, rfl, hg⟩
    rw [List.getD_append_right _ _ _ _ (Nat.le_refl _)]
    simp

/-- C9: syntax validation matches the spec wording exactly; interning the
same string twice yields the same id; interning two distinct strings yields
distinct ids; and interning fails exactly when validation fails or the table
already holds MAX_LABELS_CNT = 65536 labels. -/
theorem label_intern_spec :
    (∀ s : List Char, (get_label s).isSome = true ↔ SpecValidLabel s) ∧
    (∀ (h h₁ h₂ : SmackAccesses) (s : List Char) (p₁ p₂ : Nat × Nat),
      label_add h s = (h₁, some p₁) → label_add h₁ s = (h₂, some p₂) →
      p₂.1 = p₁.1 ∧ h₂ = h₁) ∧
    (∀ (h h₁ h₂ : SmackAccesses) (s t : List Char) (p₁ p₂ : Nat × Nat),
      s ≠ t → label_add h s = (h₁, some p₁) → label_add h₁ t = (h₂, some p₂) →
      p₁.1 ≠ p₂.1) ∧
    (∀ (h : SmackAccesses) (s : List Char),
      (label_add h s).2 = none ↔
        (get_label s = none ∨ h.labels.length = MAX_LABELS_CNT)) := by
  refine ⟨get_label_isSome_iff, ?_, ?_, ?_⟩
  · intro h h₁ h₂ s p₁ p₂ e1 e2
    obtain ⟨p11, p12⟩ := p₁
    obtain ⟨p21, p22⟩ := p₂
    rcases label_add_cases h s with ⟨_, he⟩ | ⟨_, _, he⟩ |
      ⟨i0, len0, hcap, hg, hl, he⟩ | ⟨len0, hcap, hg, hl, he⟩
    · rw [e1] at he
      exact absurd he (by simp [Prod.ext_iff])
    · rw [e1] at he
      exact absurd he (by simp [Prod.ext_iff])
    · rw [e1] at he
      simp only [Prod.mk.injEq, Option.some.injEq] at he
      obtain ⟨rfl, rfl, rfl⟩ := he
      rcases label_add_cases h₁ s with ⟨_, hf⟩ | ⟨_, hgn, hf⟩ |
        ⟨i1, len1, _, hg1, hl1, hf⟩ | ⟨len1, _, hg1, hl1, hf⟩
      · rw [e2] at hf
        exact absurd hf (by simp [Prod.ext_iff])
      · rw [e2] at hf
        exact absurd hf (by simp [Prod.ext_iff])
      · rw [e2] at hf
        simp only [Prod.mk.injEq, Option.some.injEq] at hf
        obtain ⟨rfl, rfl, rfl⟩ := hf
        rw [hl] at hl1
        cases hl1
        exact ⟨rfl, rfl⟩
      · rw [hl] at hl1; cases hl1
    · rw [e1] at he
      simp only [Prod.mk.injEq, Option.some.injEq] at he
      obtain ⟨he1, rfl, rfl⟩ := he
      have hnotmem : s ∉ h.labels.map (·.label) := (lookupIdx_eq_none _ _).mp hl
      have hlook : lookupIdx h₁.labels s = some h.labels.length := by
        rw [he1]
        exact lookupIdx_append_self h.labels s [] hnotmem
      rcases label_add_cases h₁ s with ⟨_, hf⟩ | ⟨_, hgn, hf⟩ |
        ⟨i1, len1, _, hg1, hl1, hf⟩ | ⟨len1, _, hg1, hl1, hf⟩
      · rw [e2] at hf
        exact absurd hf (by simp [Prod.ext_iff])
      · rw [e2] at hf
        exact absurd hf (by simp [Prod.ext_iff])
      · rw [e2] at hf
        simp only [Prod.mk.injEq, Option.some.injEq] at hf
        obtain ⟨rfl, rfl, rfl⟩ := hf
        rw [hlook] at hl1
        cases hl1
        exact ⟨rfl, rfl⟩
      · rw [hlook] at hl1
        cases hl1
  · intro h h₁ h₂ s t p₁ p₂ hst e1 e2
    obtain ⟨hi1, hat1, _, _, _⟩ :=
      @label_add_some_spec h h₁ s p₁.1 p₁.2 (by rw [e1])
    obtain ⟨hi2, hat2, ⟨ext2, hext2⟩, _, _⟩ :=
      @label_add_some_spec h₁ h₂ t p₂.1 p₂.2 (by rw [e2])
    intro hii
    apply hst
    rw [← hat1, ← hat2, hii]
    congr 1
    rw [hext2]
    rw [List.getD_append _ _ _ _ (by omega)]
  · intro h s
    rcases label_add_cases h s with ⟨hcap, he⟩ | ⟨hcap, hg, he⟩ |
      ⟨i0, len0, hcap, hg, hl, he⟩ | ⟨len0, hcap, hg, hl, he⟩ <;> rw [he]
    · simp [hcap]
    · simp [hg]
    · simp [hg, hcap]
    · simp [hg, hcap]

/-- Witness for C6: a mixed-case canonical string parses and re-renders to
its lowercase form, and a string with a foreign character is rejected. -/
theorem access_codec_roundtrip_witness :
    (∃ code, str_to_access_code "rWxAt-".toList = some code ∧
      access_code_to_str code = canonicalLowercase "rWxAt-".toList) ∧
    str_to_access_code "rz".toList = none :=
  ⟨access_codec_roundtrip.1 "rWxAt-".toList (by decide) (by decide),
   access_codec_roundtrip.2 "rz".toList ⟨'z', by decide, by decide⟩⟩

/-- Witness for C9 at concrete inputs: "a" is a valid label, interning "a"
then "b" into a fresh engine yields ids 0 and 1, and interning "-" fails. -/
theorem label_intern_spec_witness :
    SpecValidLabel ['a'] ∧
    ((0, 1) : Nat × Nat).1 ≠ ((1, 1) : Nat × Nat).1 ∧
    (label_add emptyAccesses ['-']).2 = none := by
  refine ⟨?_, ?_, ?_⟩
  · exact (label_intern_spec.1 ['a']).mp (by decide)
  · exact label_intern_spec.2.2.1 emptyAccesses ⟨false, [⟨['a'], []⟩]⟩
      ⟨false, [⟨['a'], []⟩, ⟨['b'], []⟩]⟩ ['a'] ['b'] (0, 1) (1, 1)
      (by decide) (by decide) (by decide)
  · exact (label_intern_spec.2.2.2 emptyAccesses ['-']).mpr (Or.inl (by decide))

/-! ## Rule insertion lemmas and claim C5 -/

theorem char_to_access_bit_lt {c : Char} {b : Nat}
    (h : char_to_access_bit c = some b) : b < 64 := by
  unfold char_to_access_bit at h
  split_ifs at h <;> (cases h; omega)

theorem str_to_access_code_loop_lt : ∀ (s : List Char) (code : Nat),
    code < 64 → ∀ c, str_to_access_code_loop s code = some c → c < 64 := by
  intro s
  induction s with
  | nil =>
    intro code hcode c hc
    cases hc
    exact hcode
  | cons x xs ih =>
    intro code hcode c hc
    simp only [str_to_access_code_loop] at hc
    cases hb : char_to_access_bit x with
    | none => rw [hb] at hc; cases hc
    | some b =>
      rw [hb] at hc
      refine ih _ ?_ c hc
      have key : ∀ x y : Fin 64, ((x : Nat) ||| (y : Nat)) < 64 := by decide
      exact key ⟨code, hcode⟩ ⟨b, char_to_access_bit_lt hb⟩

theorem str_to_access_code_lt {s : List Char} {c : Nat}
    (h : str_to_access_code s = some c) : c < 64 :=
  str_to_access_code_loop_lt s 0 (by omega) c h

theorem or_xor_all {ac : Nat} (h : ac < 64) :
    (ac ||| (ACCESS_TYPE_ALL ^^^ ac)) = ACCESS_TYPE_ALL := by
  have key : ∀ x : Fin 64,
      ((x : Nat) ||| (ACCESS_TYPE_ALL ^^^ (x : Nat))) = ACCESS_TYPE_ALL := by decide
  exact key ⟨ac, h⟩

theorem xor_all_testBit {ac : Nat} (h : ac < 64) :
    ∀ k < 6, (ACCESS_TYPE_ALL ^^^ ac).testBit k = !ac.testBit k := by
  have key : ∀ (x : Fin 64) (k : Fin 6),
      (ACCESS_TYPE_ALL ^^^ (x : Nat)).testBit k = !(x : Nat).testBit k := by decide
  intro k hk
  exact key ⟨ac, h⟩ ⟨k, hk⟩

theorem listModify_length (f : α → α) : ∀ (i : Nat) (l : List α),
    (listModify f i l).length = l.length := by
  intro i
  induction i with
  | zero => intro l; cases l <;> simp [listModify]
  | succ n ih =>
    intro l
    cases l with
    | nil => simp [listModify]
    | cons a as => simp [listModify, ih]

theorem listModify_getD_same (f : α → α) : ∀ (l : List α) (i : Nat) (d : α),
    i < l.length → (listModify f i l).getD i d = f (l.getD i d) := by
  intro l
  induction l with
  | nil => intro i d h; simp at h
  | cons a as ih =>
    intro i d h
    cases i with
    | zero => simp [listModify]
    | succ n =>
      simp only [listModify, List.getD_cons_succ]
      exact ih n d (by simpa using Nat.lt_of_succ_lt_succ h)

theorem listModify_getD_ne (f : α → α) : ∀ (l : List α) (i j : Nat) (d : α),
    i ≠ j → (listModify f i l).getD j d = l.getD j d := by
  intro l
  induction l with
  | nil => intro i j d _; cases i <;> simp [listModify]
  | cons a as ih =>
    intro i j d hij
    cases i with
    | zero =>
      cases j with
      | zero => exact absurd rfl hij
      | succ m => simp [listModify]
    | succ n =>
      cases j with
      | zero => simp [listModify]
      | succ m =>
        simp only [listModify, List.getD_cons_succ]
        exact ih n m d (fun hx => hij (by rw [hx]))

/-- A rule that is not modify-style is emitted as a 3-field load record. -/
theorem emitRule_load (e : SmackAccesses) (subj : List Char) (r : SmackRule)
    (ch : Bool) (hr : isModifyStyle r = false) :
    emitRule e subj r false ch =
      some (.load subj (labelOfId e r.object_id) (access_code_to_str r.allow_code)) := by
  unfold emitRule
  rw [hr]
  simp

/-- C5: a plain `add` (no explicit deny) stores deny as the 6-bit complement
of the parsed allow mask, so `allow ||| deny = ACCESS_TYPE_ALL`, the rule is
not modify-style, and `emitRule` always serializes it as a load record
(never through the change-rule descriptor). -/
theorem plain_add_complement_deny :
    ∀ (h : SmackAccesses) (s o a : List Char) (h' : SmackAccesses),
      accesses_add h s o a none = (h', true) →
      ∃ ac sid oid,
        str_to_access_code a = some ac ∧ ac < 64 ∧
        sid < h'.labels.length ∧
        ((h'.labels.getD sid default).rules.getLast? =
          some ⟨ac, ACCESS_TYPE_ALL ^^^ ac, oid⟩) ∧
        (ac ||| (ACCESS_TYPE_ALL ^^^ ac)) = ACCESS_TYPE_ALL ∧
        (∀ k < 6, (ACCESS_TYPE_ALL ^^^ ac).testBit k = !ac.testBit k) ∧
        isModifyStyle ⟨ac, ACCESS_TYPE_ALL ^^^ ac, oid⟩ = false ∧
        ∀ (e₂ : SmackAccesses) (subj : List Char) (ch : Bool),
          emitRule e₂ subj ⟨ac, ACCESS_TYPE_ALL ^^^ ac, oid⟩ false ch =
            some (.load subj (labelOfId e₂ oid) (access_code_to_str ac)) := by
  intro h s o a h' heq
  unfold accesses_add at heq
  split at heq
  · exact absurd heq (by simp [Prod.ext_iff])
  · rename_i h1 sid slen e1
    split at heq
    · exact absurd heq (by simp [Prod.ext_iff])
    · rename_i h2 oid olen e2
      simp only [] at heq
      split at heq
      · exact absurd heq (by simp [Prod.ext_iff])
      · rename_i ac e3
        simp only [Prod.mk.injEq] at heq
        obtain ⟨heq1, _⟩ := heq
        have hac : ac < 64 := str_to_access_code_lt e3
        obtain ⟨hsid1, _, _, _, _⟩ := label_add_some_spec e1
        obtain ⟨_, _, ⟨ext2, hext2⟩, _, _⟩ := label_add_some_spec e2
        have h3labels :
            (if (SHORT_LABEL_LEN < slen || SHORT_LABEL_LEN < olen) = true
              then { h2 with has_long := true } else h2).labels = h2.labels := by
          split <;> rfl
        have hsid3 :
            sid < (if (SHORT_LABEL_LEN < slen || SHORT_LABEL_LEN < olen) = true
              then { h2 with has_long := true } else h2).labels.length := by
          rw [h3labels, hext2, List.length_append]
          omega
        refine ⟨ac, sid, oid, e3, hac, ?_, ?_, or_xor_all hac,
          xor_all_testBit hac, ?_, ?_⟩
        · rw [← heq1]
          unfold addRuleAt
          simp only [listModify_length]
          exact hsid3
        · rw [← heq1]
          unfold addRuleAt
          simp only
          rw [listModify_getD_same _ _ _ _ hsid3]
          simp
        · simp [isModifyStyle, or_xor_all hac]
        · intro e₂ subj ch
          exact emitRule_load e₂ subj _ ch (by simp [isModifyStyle, or_xor_all hac])

/-- Witness for C5: a concrete plain add on a fresh engine. -/
theorem plain_add_complement_deny_witness :
    ∃ ac sid oid,
      str_to_access_code "rw".toList = some ac ∧ ac < 64 ∧
      sid < (smack_accesses_add emptyAccesses ['a'] ['b'] "rw".toList).1.labels.length ∧
      (((smack_accesses_add emptyAccesses ['a'] ['b'] "rw".toList).1.labels.getD sid
        default).rules.getLast? = some ⟨ac, ACCESS_TYPE_ALL ^^^ ac, oid⟩) ∧
      (ac ||| (ACCESS_TYPE_ALL ^^^ ac)) = ACCESS_TYPE_ALL ∧
      (∀ k < 6, (ACCESS_TYPE_ALL ^^^ ac).testBit k = !ac.testBit k) ∧
      isModifyStyle ⟨ac, ACCESS_TYPE_ALL ^^^ ac, oid⟩ = false ∧
      ∀ (e₂ : SmackAccesses) (subj : List Char) (ch : Bool),
        emitRule e₂ subj ⟨ac, ACCESS_TYPE_ALL ^^^ ac, oid⟩ false ch =
          some (.load subj (labelOfId e₂ oid) (access_code_to_str ac)) :=
  plain_add_complement_deny emptyAccesses ['a'] ['b'] "rw".toList
    (smack_accesses_add emptyAccesses ['a'] ['b'] "rw".toList).1 (by decide)

/-! ## Closed theorems on concrete inputs -/

/-- C10: after `add("Unconfined", "Unconfined", "rwxat")` on a fresh engine,
`save` in long format writes exactly the line
`"Unconfined Unconfined rwxat-\n"` — the six access columns in the fixed
order r,w,x,a,t,l with a dash for the unset lock bit, then a newline. -/
theorem unconfined_save_line :
    smack_accesses_save ((smack_accesses_add emptyAccesses
      "Unconfined".toList "Unconfined".toList "rwxat".toList).1) =
    some "Unconfined Unconfined rwxat-\n".toList := by decide

/-- C3: the category-parsing loop of `smack_cipso_add_from_file` stores a
category at index 63 on a line carrying 64 category tokens, while the C
declaration `int cats[CAT_MAX_VALUE]` only provides indices 0..62
(`cats_decl_len = 63` elements): the store is out of bounds, and the call
still reports success. -/
theorem cipso_cats_out_of_bounds_write :
    (smack_cipso_add_from_file emptyCipso cipsoOobInput).2 = true ∧
    (smack_cipso_add_from_file emptyCipso cipsoOobInput).1.mappings.length = 1 ∧
    ((smack_cipso_add_from_file emptyCipso cipsoOobInput).1.mappings.getD 0
      default).catWrites.any (fun w => cats_decl_len ≤ w.1) = true := by decide

/-- C4 counterexample: `add` with a 24-byte subject and an invalid object
label fails after the subject has already been interned but before
`has_long` is updated, leaving an engine whose interned labels include one
longer than SHORT_LABEL_LEN while `has_long` is still false — so `has_long`
is not equivalent to "some interned label exceeds 23 bytes", and `add` does
not preserve that equivalence. -/
theorem has_long_invariant_counterexample :
    (smack_accesses_add emptyAccesses longLabel24 "-x".toList "r".toList).2 = false ∧
    (smack_accesses_add emptyAccesses longLabel24 "-x".toList "r".toList).1.has_long = false ∧
    (labelStrings (smack_accesses_add emptyAccesses longLabel24 "-x".toList
      "r".toList).1).any (fun s => SHORT_LABEL_LEN < s.length) = true := by decide

/-- C7 counterexample: the engine holds the single rule
(subject "a", object "b", allow rw = 3, deny rwxatl = 63); because
`allow | deny = ACCESS_TYPE_ALL` it is saved as the load record
`"a b rw----"`, and re-ingesting derives deny = 60, so the round trip does
not reproduce the same (subject, object, allow, deny) rule multiset. -/
theorem save_roundtrip_counterexample :
    (roundTrip overlapEngine).2 = true ∧
    rulesOfSubject overlapEngine ['a'] = [(['b'], 3, 63)] ∧
    rulesOfSubject (roundTrip overlapEngine).1 ['a'] = [(['b'], 3, 60)] ∧
    rulesOfSubject (roundTrip overlapEngine).1 ['a'] ≠
      rulesOfSubject overlapEngine ['a'] := by decide

/-- C2 counterexample: this line consists of the valid label "x", the valid
level 0 and 245 valid category tokens (all equal to 10), yet
`smack_cipso_add_from_file` reports success with two mappings whose category
counts are 169 and 74 — not one mapping with exactly 240 categories — because
the 512-byte fgets buffer splits the 739-character line and the tail of the
line is re-parsed as a fresh mapping. -/
theorem cipso_line_buffer_counterexample :
    splitFields cipsoLongLine = ['x'] :: ['0'] :: List.replicate 245 ['1', '0'] ∧
    get_label ['x'] = some 1 ∧ strtol10 ['0'] = some 0 ∧
    (∀ t ∈ List.replicate 245 ['1', '0'], strtol10 t = some 10) ∧
    (smack_cipso_add_from_file emptyCipso cipsoLongLine).2 = true ∧
    (smack_cipso_add_from_file emptyCipso cipsoLongLine).1.mappings.map
      (·.ncats) = [169, 74] := by decide

/-! ## Print traversal lemmas, claims C1 and C8 -/

theorem emitRule_modify_none (e : SmackAccesses) (subj : List Char)
    (r : SmackRule) (hr : isModifyStyle r = true) :
    emitRule e subj r false false = none := by
  unfold emitRule
  rw [hr]
  simp

theorem emitRule_clear (e : SmackAccesses) (subj : List Char) (r : SmackRule)
    (ch : Bool) :
    emitRule e subj r true ch =
      some (.load subj (labelOfId e r.object_id) (access_code_to_str 0)) := by
  unfold emitRule
  simp

theorem prod_eq_of_snd {α : Type _} (x : α × Bool) (b : Bool) (h : x.2 = b) :
    x = (x.1, b) := by
  cases x
  cases h
  rfl

theorem emitRule_subjObj (e : SmackAccesses) (subj : List Char) (r : SmackRule)
    (clear ch : Bool) (rec1 : OutRec)
    (h : emitRule e subj r clear ch = some rec1) :
    outRecSubjObj rec1 = (subj, labelOfId e r.object_id) := by
  unfold emitRule at h
  simp only [] at h
  split_ifs at h <;> (cases h; rfl)

theorem printStream_append (e : SmackAccesses) (clear ch : Bool) :
    ∀ xs ys : List (List Char × SmackRule),
      printStream e clear ch (xs ++ ys) =
        (if (printStream e clear ch xs).2 then
          ((printStream e clear ch xs).1 ++ (printStream e clear ch ys).1,
            (printStream e clear ch ys).2)
         else printStream e clear ch xs) := by
  intro xs
  induction xs with
  | nil => intro ys; simp [printStream]
  | cons p xs ih =>
    intro ys
    simp only [List.cons_append, printStream, List.append_eq]
    cases he : emitRule e p.1 p.2 clear ch with
    | none => simp
    | some rec1 =>
      simp only []
      rw [ih ys]
      by_cases hx : (printStream e clear ch xs).2 <;> simp [hx]

theorem printRules_eq_stream (e : SmackAccesses) (subj : List Char)
    (clear ch : Bool) : ∀ rules : List SmackRule,
    printRules e subj clear ch rules =
      printStream e clear ch (rules.map (fun r => (subj, r))) := by
  intro rules
  induction rules with
  | nil => rfl
  | cons r rest ih =>
    simp only [printRules, List.map_cons, printStream]
    rw [ih]

theorem printLabels_eq_stream (e : SmackAccesses) (clear ch : Bool) :
    ∀ ls : List SmackLabel,
    printLabels e clear ch ls =
      printStream e clear ch
        ((ls.map (fun l => l.rules.map (fun r => (l.label, r)))).flatten) := by
  intro ls
  induction ls with
  | nil => rfl
  | cons l rest ih =>
    simp only [printLabels, List.map_cons, List.flatten_cons]
    rw [printStream_append, printRules_eq_stream, ih]
    by_cases hx : (printStream e clear ch (l.rules.map (fun r => (l.label, r)))).2 = true
    · simp [hx]
    · have hx2 : (printStream e clear ch (l.rules.map (fun r => (l.label, r)))).2 = false := by
        simpa using hx
      simp only [hx2, Bool.false_eq_true, if_false]
      exact (prod_eq_of_snd _ false hx2).symm

theorem accesses_print_eq_stream (e : SmackAccesses) (clear ch use_long : Bool) :
    accesses_print e clear ch use_long =
      (if !use_long && e.has_long then ([], false)
       else printStream e clear ch (ruleStream e)) := by
  unfold accesses_print ruleStream
  split
  · rfl
  · exact printLabels_eq_stream e clear ch e.labels

theorem printStream_modify_fails (e : SmackAccesses) :
    ∀ stream : List (List Char × SmackRule),
      (∃ p ∈ stream, isModifyStyle p.2 = true) →
      printStream e false false stream =
        ((stream.takeWhile (fun p => !isModifyStyle p.2)).map
          (fun p => OutRec.load p.1 (labelOfId e p.2.object_id)
            (access_code_to_str p.2.allow_code)), false) := by
  intro stream
  induction stream with
  | nil =>
    rintro ⟨p, hp, _⟩
    cases hp
  | cons p rest ih =>
    intro h
    simp only [printStream]
    by_cases hp : isModifyStyle p.2 = true
    · rw [emitRule_modify_none e p.1 p.2 hp]
      simp [List.takeWhile_cons, hp]
    · have hp2 : isModifyStyle p.2 = false := by simpa using hp
      rw [emitRule_load e p.1 p.2 false hp2]
      have hrest : ∃ q ∈ rest, isModifyStyle q.2 = true := by
        obtain ⟨q, hq, hqm⟩ := h
        rcases List.mem_cons.mp hq with rfl | hq2
        · exact absurd hqm hp
        · exact ⟨q, hq2, hqm⟩
      simp only []
      rw [ih hrest]
      simp [List.takeWhile_cons, hp2]

theorem printStream_clear (e : SmackAccesses) (ch : Bool) :
    ∀ stream : List (List Char × SmackRule),
      printStream e true ch stream =
        (stream.map (fun p => OutRec.load p.1 (labelOfId e p.2.object_id)
          (access_code_to_str 0)), true) := by
  intro stream
  induction stream with
  | nil => rfl
  | cons p rest ih =>
    simp only [printStream, List.map_cons]
    rw [emitRule_clear]
    simp only []
    rw [ih]

theorem printStream_success_pairs (e : SmackAccesses) (clear ch : Bool) :
    ∀ (stream : List (List Char × SmackRule)) (recs : List OutRec),
      printStream e clear ch stream = (recs, true) →
      recs.map outRecSubjObj =
        stream.map (fun p => (p.1, labelOfId e p.2.object_id)) := by
  intro stream
  induction stream with
  | nil =>
    intro recs h
    simp only [printStream, Prod.mk.injEq] at h
    rw [← h.1]
    rfl
  | cons p rest ih =>
    intro recs h
    simp only [printStream] at h
    cases he : emitRule e p.1 p.2 clear ch with
    | none =>
      rw [he] at h
      exact absurd h (by simp [Prod.ext_iff])
    | some rec1 =>
      rw [he] at h
      simp only [Prod.mk.injEq] at h
      obtain ⟨h1, h2⟩ := h
      rw [← h1]
      simp only [List.map_cons]
      rw [emitRule_subjObj e p.1 p.2 clear ch rec1 he,
        ih _ (prod_eq_of_snd _ true h2)]

/-- C1: on an engine containing a modify-style rule, with the change-rule
interface absent and clear mode off, serialization fails: `accesses_print`
stops at the first modify-style rule, having emitted exactly the load
records of the preceding load-style rules (the modify rule is never written,
in load form or otherwise), and `accesses_apply` reports failure for every
load-interface configuration. -/
theorem modify_rule_without_change_iface_fails :
    ∀ e : SmackAccesses, (∃ p ∈ ruleStream e, isModifyStyle p.2 = true) →
      (∀ la sa : Bool, (accesses_apply e false la sa false).2 = false) ∧
      (∀ ul : Bool, (ul || !e.has_long) = true →
        accesses_print e false false ul =
          (((ruleStream e).takeWhile (fun p => !isModifyStyle p.2)).map
            (fun p => OutRec.load p.1 (labelOfId e p.2.object_id)
              (access_code_to_str p.2.allow_code)), false)) := by
  intro e hmod
  have hcore : ∀ ul : Bool, (ul || !e.has_long) = true →
      accesses_print e false false ul =
        (((ruleStream e).takeWhile (fun p => !isModifyStyle p.2)).map
          (fun p => OutRec.load p.1 (labelOfId e p.2.object_id)
            (access_code_to_str p.2.allow_code)), false) := by
    intro ul hul
    rw [accesses_print_eq_stream]
    have hguard : (!ul && e.has_long) = false := by
      cases ul
      · have hx : e.has_long = false := by simpa using hul
        simp [hx]
      · simp
    rw [hguard]
    simp only [Bool.false_eq_true, if_false]
    exact printStream_modify_fails e (ruleStream e) hmod
  refine ⟨?_, hcore⟩
  intro la sa
  unfold accesses_apply
  cases hopen : open_smackfs_file la sa with
  | none => rfl
  | some ul =>
    simp only []
    rw [accesses_print_eq_stream]
    by_cases hguard : (!ul && e.has_long) = true
    · rw [hguard]; rfl
    · have hg2 : (!ul && e.has_long) = false := by simpa using hguard
      rw [hg2]
      simp only [Bool.false_eq_true, if_false]
      rw [printStream_modify_fails e (ruleStream e) hmod]

/-- Witness for C1: the engine with rules ("a","b",rw) load-style and
("c","d",r,w) modify-style fails to apply without the change-rule interface
after emitting only the load record of the first rule. -/
theorem modify_rule_without_change_iface_fails_witness :
    (accesses_apply modifyEngine false true true false).2 = false ∧
    accesses_print modifyEngine false false true =
      (((ruleStream modifyEngine).takeWhile (fun p => !isModifyStyle p.2)).map
        (fun p => OutRec.load p.1 (labelOfId modifyEngine p.2.object_id)
          (access_code_to_str p.2.allow_code)), false) :=
  ⟨(modify_rule_without_change_iface_fails modifyEngine (by decide)).1 true true,
   (modify_rule_without_change_iface_fails modifyEngine (by decide)).2 true (by decide)⟩

/-- C8: in clear mode the prints traverse exactly the same rule stream as
apply mode and emit every rule — modify-style included — as a load-format
record whose access field is the zero code (all dashes, the stored deny is
not emitted); the result does not depend on the change-rule interface at
all, and a successful apply-mode pass visits the same (subject, object)
sequence. -/
theorem clear_emits_zero_allow_load :
    ∀ (e : SmackAccesses) (ch ul : Bool), (ul || !e.has_long) = true →
      (accesses_print e true ch ul =
        ((ruleStream e).map (fun p => OutRec.load p.1 (labelOfId e p.2.object_id)
          (access_code_to_str 0)), true)) ∧
      access_code_to_str 0 = "------".toList ∧
      (∀ recs : List OutRec, accesses_print e false ch ul = (recs, true) →
        recs.map outRecSubjObj =
          (ruleStream e).map (fun p => (p.1, labelOfId e p.2.object_id))) ∧
      (∀ la sa ca ca' : Bool,
        accesses_apply e true la sa ca = accesses_apply e true la sa ca') := by
  intro e ch ul hul
  have hguard : (!ul && e.has_long) = false := by
    cases ul
    · have hx : e.has_long = false := by simpa using hul
      simp [hx]
    · simp
  refine ⟨?_, by decide, ?_, ?_⟩
  · rw [accesses_print_eq_stream, hguard]
    simp only [Bool.false_eq_true, if_false]
    exact printStream_clear e ch (ruleStream e)
  · intro recs h
    rw [accesses_print_eq_stream, hguard] at h
    simp only [Bool.false_eq_true, if_false] at h
    exact printStream_success_pairs e false ch (ruleStream e) recs h
  · intro la sa ca ca'
    unfold accesses_apply
    cases hopen : open_smackfs_file la sa with
    | none => rfl
    | some ul2 =>
      simp only []
      rw [accesses_print_eq_stream, accesses_print_eq_stream]
      by_cases hg : (!ul2 && e.has_long) = true
      · rw [hg]
        rfl
      · have hg2 : (!ul2 && e.has_long) = false := by simpa using hg
        rw [hg2]
        simp only [Bool.false_eq_true, if_false]
        rw [printStream_clear, printStream_clear]

/-- Witness for C8 on a concrete engine containing a modify-style rule. -/
theorem clear_emits_zero_allow_load_witness :
    (accesses_print modifyEngine true false true =
      ((ruleStream modifyEngine).map
        (fun p => OutRec.load p.1 (labelOfId modifyEngine p.2.object_id)
          (access_code_to_str 0)), true)) ∧
    (∀ la sa ca ca' : Bool,
      accesses_apply modifyEngine true la sa ca =
        accesses_apply modifyEngine true la sa ca') :=
  ⟨(clear_emits_zero_allow_load modifyEngine false true (by decide)).1,
   (clear_emits_zero_allow_load modifyEngine false true (by decide)).2.2.2⟩

/-! ## The has-long invariant (claim C4) -/

/-- Decomposition of a successful `accesses_add`. -/
theorem accesses_add_true_spec {h h' : SmackAccesses} {s o a : List Char}
    {dOpt : Option (List Char)}
    (heq : accesses_add h s o a dOpt = (h', true)) :
    ∃ h1 h2 sid oid slen olen ac dc,
      label_add h s = (h1, some (sid, slen)) ∧
      label_add h1 o = (h2, some (oid, olen)) ∧
      str_to_access_code a = some ac ∧
      (match dOpt with
       | none => dc = ACCESS_TYPE_ALL ^^^ ac
       | some d => str_to_access_code d = some dc) ∧
      h' = addRuleAt
        (if (SHORT_LABEL_LEN < slen || SHORT_LABEL_LEN < olen) = true
         then { h2 with has_long := true } else h2) sid ⟨ac, dc, oid⟩ := by
  unfold accesses_add at heq
  split at heq
  · exact absurd heq (by simp [Prod.ext_iff])
  · rename_i h1 sid slen e1
    split at heq
    · exact absurd heq (by simp [Prod.ext_iff])
    · rename_i h2 oid olen e2
      simp only [] at heq
      split at heq
      · exact absurd heq (by simp [Prod.ext_iff])
      · rename_i ac e3
        cases dOpt with
        | none =>
          simp only [Prod.mk.injEq] at heq
          exact ⟨h1, h2, sid, oid, slen, olen, ac, ACCESS_TYPE_ALL ^^^ ac,
            e1, e2, e3, rfl, heq.1.symm⟩
        | some d =>
          simp only [] at heq
          split at heq
          · exact absurd heq (by simp [Prod.ext_iff])
          · rename_i dc e4
            simp only [Prod.mk.injEq] at heq
            exact ⟨h1, h2, sid, oid, slen, olen, ac, dc,
              e1, e2, e3, e4, heq.1.symm⟩

theorem listModify_map_label (f : SmackLabel → SmackLabel)
    (hf : ∀ x, (f x).label = x.label) : ∀ (i : Nat) (l : List SmackLabel),
    (listModify f i l).map (·.label) = l.map (·.label) := by
  intro i
  induction i with
  | zero =>
    intro l
    cases l with
    | nil => rfl
    | cons x xs => simp [listModify, hf]
  | succ n ih =>
    intro l
    cases l with
    | nil => rfl
    | cons x xs => simp [listModify, ih]

theorem addRuleAt_strings (h : SmackAccesses) (sid : Nat) (r : SmackRule) :
    labelStrings (addRuleAt h sid r) = labelStrings h ∧
    (addRuleAt h sid r).has_long = h.has_long ∧
    (addRuleAt h sid r).labels.length = h.labels.length := by
  refine ⟨?_, rfl, ?_⟩
  · unfold addRuleAt labelStrings
    exact listModify_map_label (fun l => { l with rules := l.rules ++ [r] })
      (fun x => rfl) sid h.labels
  · unfold addRuleAt
    exact listModify_length (fun l => { l with rules := l.rules ++ [r] }) sid h.labels

theorem label_add_some_strings {h h₁ : SmackAccesses} {s : List Char}
    {i len : Nat} (heq : label_add h s = (h₁, some (i, len))) :
    len = s.length ∧ s ∈ labelStrings h₁ ∧
    ((h₁ = h ∧ labelStrings h₁ = labelStrings h) ∨
      (h₁.labels = h.labels ++ [⟨s, []⟩] ∧
        labelStrings h₁ = labelStrings h ++ [s] ∧ s ∉ labelStrings h)) := by
  rcases label_add_cases h s with ⟨_, he⟩ | ⟨_, _, he⟩ |
    ⟨i0, len0, _, hg, hl, he⟩ | ⟨len0, _, hg, hl, he⟩
  · rw [heq] at he
    exact absurd he.symm (by simp [Prod.ext_iff])
  · rw [heq] at he
    exact absurd he.symm (by simp [Prod.ext_iff])
  · rw [heq] at he
    simp only [Prod.mk.injEq, Option.some.injEq] at he
    obtain ⟨rfl, rfl, rfl⟩ := he
    obtain ⟨hlt, hat, _⟩ := lookupIdx_eq_some _ _ _ hl
    refine ⟨get_label_some_len hg, ?_, Or.inl ⟨rfl, rfl⟩⟩
    rw [← hat]
    unfold labelStrings
    rw [List.getD_eq_getElem _ default hlt]
    exact List.mem_map_of_mem _ (List.getElem_mem hlt)
  · rw [heq] at he
    simp only [Prod.mk.injEq, Option.some.injEq] at he
    obtain ⟨rfl, rfl, rfl⟩ := he
    refine ⟨get_label_some_len hg, ?_, Or.inr ⟨rfl, ?_, ?_⟩⟩
    · unfold labelStrings
      simp
    · unfold labelStrings
      simp
    · exact (lookupIdx_eq_none _ _).mp hl

theorem hasLongInv_add {e e' : SmackAccesses} {s o a : List Char}
    {d : Option (List Char)} (hInv : HasLongInv e)
    (heq : accesses_add e s o a d = (e', true)) : HasLongInv e' := by
  obtain ⟨h1, h2, sid, oid, slen, olen, ac, dc, e1, e2, _, _, rfl⟩ :=
    accesses_add_true_spec heq
  obtain ⟨rfl, hs1, hstr1⟩ := label_add_some_strings e1
  obtain ⟨rfl, ho2, hstr2⟩ := label_add_some_strings e2
  have hl1 : h1.has_long = e.has_long := (label_add_some_spec e1).2.2.2.1
  have hl2 : h2.has_long = e.has_long :=
    ((label_add_some_spec e2).2.2.2.1).trans hl1
  have hifL :
      labelStrings (if (SHORT_LABEL_LEN < s.length || SHORT_LABEL_LEN < o.length) = true
        then { h2 with has_long := true } else h2) = labelStrings h2 := by
    split <;> rfl
  have hifH :
      (if (SHORT_LABEL_LEN < s.length || SHORT_LABEL_LEN < o.length) = true
        then { h2 with has_long := true } else h2).has_long =
      ((SHORT_LABEL_LEN < s.length || SHORT_LABEL_LEN < o.length) || h2.has_long) := by
    split
    · rename_i hcond
      rw [hcond]
      rfl
    · rename_i hcond
      have : (decide (SHORT_LABEL_LEN < s.length) ||
          decide (SHORT_LABEL_LEN < o.length)) = false := by simpa using hcond
      rw [this]
      simp
  have h12sub : ∀ t ∈ labelStrings h1, t ∈ labelStrings h2 := by
    intro t ht
    rcases hstr2 with ⟨_, hsame⟩ | ⟨_, happ, _⟩
    · rw [hsame]; exact ht
    · rw [happ]; exact List.mem_append_left _ ht
  have hEsub : ∀ t ∈ labelStrings e, t ∈ labelStrings h1 := by
    intro t ht
    rcases hstr1 with ⟨_, hsame⟩ | ⟨_, happ, _⟩
    · rw [hsame]; exact ht
    · rw [happ]; exact List.mem_append_left _ ht
  have hback : ∀ t ∈ labelStrings h2,
      t ∈ labelStrings e ∨ t = s ∨ t = o := by
    intro t ht
    rcases hstr2 with ⟨_, hsame⟩ | ⟨_, happ, _⟩
    · rw [hsame] at ht
      rcases hstr1 with ⟨_, hsame1⟩ | ⟨_, happ1, _⟩
      · rw [hsame1] at ht; exact Or.inl ht
      · rw [happ1] at ht
        rcases List.mem_append.mp ht with ht1 | ht1
        · exact Or.inl ht1
        · exact Or.inr (Or.inl (List.mem_singleton.mp ht1))
    · rw [happ] at ht
      rcases List.mem_append.mp ht with ht1 | ht1
      · rcases hstr1 with ⟨_, hsame1⟩ | ⟨_, happ1, _⟩
        · rw [hsame1] at ht1; exact Or.inl ht1
        · rw [happ1] at ht1
          rcases List.mem_append.mp ht1 with ht2 | ht2
          · exact Or.inl ht2
          · exact Or.inr (Or.inl (List.mem_singleton.mp ht2))
      · exact Or.inr (Or.inr (List.mem_singleton.mp ht1))
  unfold HasLongInv
  rw [(addRuleAt_strings _ sid ⟨ac, dc, oid⟩).1, hifL,
    (addRuleAt_strings _ sid ⟨ac, dc, oid⟩).2.1, hifH, hl2]
  constructor
  · intro hcond
    rcases Bool.or_eq_true_iff.mp hcond with hc | hc
    · rcases Bool.or_eq_true_iff.mp hc with hs | hox
      · exact ⟨s, h12sub s (hs1), by simpa using hs⟩
      · exact ⟨o, ho2, by simpa using hox⟩
    · obtain ⟨t, ht, htl⟩ := hInv.mp hc
      exact ⟨t, h12sub t (hEsub t ht), htl⟩
  · rintro ⟨t, ht, htl⟩
    rcases hback t ht with hte | rfl | rfl
    · have := hInv.mpr ⟨t, hte, htl⟩
      simp [this]
    · have : decide (SHORT_LABEL_LEN < t.length) = true := by simpa using htl
      simp [this]
    · have : decide (SHORT_LABEL_LEN < t.length) = true := by simpa using htl
      simp [this]

theorem hasLongInv_chunks : ∀ (chunks : List (List Char)) (e e' : SmackAccesses),
    HasLongInv e → accesses_from_chunks e chunks = (e', true) →
    HasLongInv e' := by
  intro chunks
  induction chunks with
  | nil =>
    intro e e' hInv heq
    simp only [accesses_from_chunks, Prod.mk.injEq] at heq
    rw [← heq.1]
    exact hInv
  | cons ch rest ih =>
    intro e e' hInv heq
    simp only [accesses_from_chunks] at heq
    by_cases hblank : ch = ['\n']
    · rw [if_pos hblank] at heq
      exact ih e e' hInv heq
    · rw [if_neg hblank] at heq
      split at heq
      · split at heq
        · rename_i h1 hadd
          exact ih h1 e' (hasLongInv_add hInv hadd) heq
        · exact absurd heq (by simp [Prod.ext_iff])
      · split at heq
        · rename_i h1 hadd
          exact ih h1 e' (hasLongInv_add hInv hadd) heq
        · exact absurd heq (by simp [Prod.ext_iff])
      · exact absurd heq (by simp [Prod.ext_iff])

/-- C4 (amended): the invariant "has_long iff some interned label exceeds 23
bytes" holds for the fresh engine and is preserved by every add,
add_modify (both are `accesses_add`) and bulk text ingestion THAT SUCCEEDS;
and whenever `has_long` is set, any serialization pass negotiated to the
short kernel format fails outright, for both apply and clear modes.  (A
FAILED add can break the equivalence: see the counterexample.) -/
theorem has_long_invariant_successful_ops :
    HasLongInv emptyAccesses ∧
    (∀ (e : SmackAccesses) (s o a : List Char) (d : Option (List Char))
      (e' : SmackAccesses), HasLongInv e → accesses_add e s o a d = (e', true) →
      HasLongInv e') ∧
    (∀ (e e' : SmackAccesses) (input : List Char),
      HasLongInv e → smack_accesses_add_from_file e input = (e', true) →
      HasLongInv e') ∧
    (∀ (e : SmackAccesses) (clear ch : Bool), e.has_long = true →
      accesses_print e clear ch false = ([], false)) := by
  refine ⟨?_, ?_, ?_, ?_⟩
  · unfold HasLongInv emptyAccesses labelStrings
    simp
  · intro e s o a d e' hInv heq
    exact hasLongInv_add hInv heq
  · intro e e' input hInv heq
    exact hasLongInv_chunks _ e e' hInv heq
  · intro e clear ch hlong
    unfold accesses_print
    rw [hlong]
    rfl

/-- Witness for C4: the invariant after one successful add of a 24-byte
subject, and short-format refusal on the resulting engine. -/
theorem has_long_invariant_successful_ops_witness :
    HasLongInv longEngine ∧
    accesses_print longEngine false true false = ([], false) := by
  constructor
  · exact has_long_invariant_successful_ops.2.1 emptyAccesses longLabel24
      "b".toList "r".toList none longEngine
      has_long_invariant_successful_ops.1 (by decide)
  · exact has_long_invariant_successful_ops.2.2.2 longEngine false true (by decide)

/-! ## Tokenization lemmas -/

theorem splitFieldsAux_delim_end : ∀ (l acc : List Char) (d : Char),
    isDelim d = true → splitFieldsAux (l ++ [d]) acc = splitFieldsAux l acc := by
  intro l
  induction l with
  | nil =>
    intro acc d hd
    simp only [List.nil_append, splitFieldsAux, hd, if_true]
    by_cases hacc : acc.isEmpty <;> simp [splitFieldsAux, hacc]
  | cons c cs ih =>
    intro acc d hd
    simp only [List.cons_append, splitFieldsAux]
    by_cases hc : isDelim c = true
    · simp only [hc, if_true]
      by_cases hacc : acc.isEmpty <;> simp [hacc, ih _ _ hd]
    · have hc2 : isDelim c = false := by simpa using hc
      simp only [hc2, Bool.false_eq_true, if_false]
      exact ih _ _ hd

theorem splitFields_delim_end (l : List Char) (d : Char) (hd : isDelim d = true) :
    splitFields (l ++ [d]) = splitFields l :=
  splitFieldsAux_delim_end l [] d hd

theorem splitFieldsAux_word_delim : ∀ (w acc rest : List Char) (d : Char),
    isDelim d = true → (∀ c ∈ w, isDelim c = false) →
    acc.reverse ++ w ≠ [] →
    splitFieldsAux (w ++ d :: rest) acc =
      (acc.reverse ++ w) :: splitFieldsAux rest [] := by
  intro w
  induction w with
  | nil =>
    intro acc rest d hd _ hne
    have hacc : acc.isEmpty = false := by
      cases acc
      · simp at hne
      · rfl
    simp only [List.nil_append, splitFieldsAux, hd, if_true, hacc,
      Bool.false_eq_true, if_false, List.append_nil]
  | cons c w' ih =>
    intro acc rest d hd hall hne
    have hc : isDelim c = false := hall c (List.mem_cons_self c w')
    simp only [List.cons_append, splitFieldsAux, hc, Bool.false_eq_true,
      if_false, List.append_eq]
    rw [ih (c :: acc) rest d hd
      (fun x hx => hall x (List.mem_cons_of_mem c hx)) (by simp)]
    simp

theorem splitFieldsAux_word_nil : ∀ (w acc : List Char),
    (∀ c ∈ w, isDelim c = false) → acc.reverse ++ w ≠ [] →
    splitFieldsAux w acc = [acc.reverse ++ w] := by
  intro w
  induction w with
  | nil =>
    intro acc _ hne
    have hacc : acc.isEmpty = false := by
      cases acc
      · simp at hne
      · rfl
    simp only [splitFieldsAux, hacc, Bool.false_eq_true, if_false,
      List.append_nil]
  | cons c w' ih =>
    intro acc hall hne
    have hc : isDelim c = false := hall c (List.mem_cons_self c w')
    simp only [splitFieldsAux, hc, Bool.false_eq_true, if_false]
    rw [ih (c :: acc) (fun x hx => hall x (List.mem_cons_of_mem c hx)) (by simp)]
    simp

theorem splitFields_three (s o a : List Char)
    (hs : s ≠ []) (hs2 : ∀ c ∈ s, isDelim c = false)
    (ho : o ≠ []) (ho2 : ∀ c ∈ o, isDelim c = false)
    (ha : a ≠ []) (ha2 : ∀ c ∈ a, isDelim c = false) :
    splitFields (s ++ ' ' :: (o ++ ' ' :: a)) = [s, o, a] := by
  unfold splitFields
  rw [splitFieldsAux_word_delim s [] _ ' ' (by decide) hs2 (by simpa using hs)]
  rw [splitFieldsAux_word_delim o [] _ ' ' (by decide) ho2 (by simpa using ho)]
  rw [splitFieldsAux_word_nil a [] ha2 (by simpa using ha)]
  simp

theorem splitFields_four (s o a d : List Char)
    (hs : s ≠ []) (hs2 : ∀ c ∈ s, isDelim c = false)
    (ho : o ≠ []) (ho2 : ∀ c ∈ o, isDelim c = false)
    (ha : a ≠ []) (ha2 : ∀ c ∈ a, isDelim c = false)
    (hd : d ≠ []) (hd2 : ∀ c ∈ d, isDelim c = false) :
    splitFields (s ++ ' ' :: (o ++ ' ' :: (a ++ ' ' :: d))) = [s, o, a, d] := by
  unfold splitFields
  rw [splitFieldsAux_word_delim s [] _ ' ' (by decide) hs2 (by simpa using hs)]
  rw [splitFieldsAux_word_delim o [] _ ' ' (by decide) ho2 (by simpa using ho)]
  rw [splitFieldsAux_word_delim a [] _ ' ' (by decide) ha2 (by simpa using ha)]
  rw [splitFieldsAux_word_nil d [] hd2 (by simpa using hd)]
  simp

/-! ## Line-reading lemmas -/

theorem fgetsChunk_content_line : ∀ (content : List Char) (n : Nat)
    (rest : List Char), content.length ≤ n → (∀ c ∈ content, c ≠ '\n') →
    fgetsChunk (n + 1) (content ++ '\n' :: rest) = (content ++ ['\n'], rest) := by
  intro content
  induction content with
  | nil => intro n rest _ _; simp [fgetsChunk]
  | cons c cs ih =>
    intro n rest hlen hnl
    have hc : ¬c = '\n' := hnl c (List.mem_cons_self c cs)
    cases n with
    | zero => simp at hlen
    | succ m =>
      simp only [List.cons_append, fgetsChunk, if_neg hc, List.append_eq]
      rw [ih m rest (by simpa using hlen)
        (fun x hx => hnl x (List.mem_cons_of_mem c hx))]

theorem fgetsChunk_full : ∀ (content tail : List Char),
    (∀ c ∈ content, c ≠ '\n') →
    fgetsChunk content.length (content ++ tail) = (content, tail) := by
  intro content
  induction content with
  | nil => intro tail _; cases tail <;> rfl
  | cons c cs ih =>
    intro tail hnl
    have hc : ¬c = '\n' := hnl c (List.mem_cons_self c cs)
    simp only [List.cons_append, List.length_cons, fgetsChunk, if_neg hc,
      List.append_eq]
    rw [ih tail (fun x hx => hnl x (List.mem_cons_of_mem c hx))]

theorem readLines_newline (k : Nat) (rest : List Char) :
    readLines k ('\n' :: rest) = ['\n'] :: readLines k rest := by
  rw [readLines_cons]
  simp [fgetsChunk]

theorem readLines_line_le (k : Nat) (content rest : List Char)
    (h1 : content.length ≤ k) (h2 : ∀ c ∈ content, c ≠ '\n') :
    readLines k (content ++ '\n' :: rest) =
      (content ++ ['\n']) :: readLines k rest := by
  cases content with
  | nil =>
    rw [List.nil_append, readLines_newline]
    rfl
  | cons c cs =>
    rw [List.cons_append, readLines_cons, ← List.cons_append,
      fgetsChunk_content_line (c :: cs) k rest h1 h2]

theorem readLines_line_full (k : Nat) (content rest : List Char)
    (h1 : content.length = k + 1) (h2 : ∀ c ∈ content, c ≠ '\n') :
    readLines k (content ++ '\n' :: rest) =
      content :: ['\n'] :: readLines k rest := by
  have hchunk : fgetsChunk (k + 1) (content ++ '\n' :: rest) =
      (content, '\n' :: rest) := by
    rw [← h1]
    exact fgetsChunk_full content ('\n' :: rest) h2
  cases content with
  | nil => simp at h1
  | cons c cs =>
    rw [List.cons_append, readLines_cons, ← List.cons_append, hchunk,
      readLines_newline]

/-! ## CIPSO category-cap lemmas and claim C2 -/

theorem catLoop_caps : ∀ (cats : List (List Char)) (i : Nat),
    (∀ t ∈ cats, (strtol10 t).isSome = true ∧ (0 : Int) ≤ (strtol10 t).getD 0 ∧
      (strtol10 t).getD 0 ≤ (CAT_MAX_VALUE : Int)) →
    i ≤ CAT_MAX_COUNT →
    ∃ ws, catLoop cats i = some (ws, min (i + cats.length) CAT_MAX_COUNT) ∧
      ws.length = min (i + cats.length) CAT_MAX_COUNT - i := by
  intro cats
  induction cats with
  | nil =>
    intro i _ hi
    refine ⟨[], ?_, ?_⟩
    · show catLoop [] i =
        some ([], min (i + ([] : List (List Char)).length) CAT_MAX_COUNT)
      simp only [List.length_nil, Nat.add_zero, catLoop]
      congr 2
      omega
    · simp only [List.length_nil, Nat.add_zero]
      omega
  | cons t ts ih =>
    intro i hall hi
    by_cases hlt : i < CAT_MAX_COUNT
    · obtain ⟨hsome, h0, h63⟩ := hall t (List.mem_cons_self t ts)
      obtain ⟨v, hv⟩ := Option.isSome_iff_exists.mp hsome
      have hv0 : (0 : Int) ≤ v := by rw [hv] at h0; simpa using h0
      have hv63 : v ≤ (CAT_MAX_VALUE : Int) := by rw [hv] at h63; simpa using h63
      obtain ⟨ws, hws, hlen⟩ :=
        ih (i + 1) (fun x hx => hall x (List.mem_cons_of_mem t hx)) (by omega)
      refine ⟨(i, v) :: ws, ?_, ?_⟩
      · simp only [catLoop, if_pos hlt, hv]
        rw [if_neg (by push_neg; exact ⟨hv0, hv63⟩), hws]
        have : min (i + 1 + ts.length) CAT_MAX_COUNT =
            min (i + (t :: ts).length) CAT_MAX_COUNT := by
          simp only [List.length_cons]
          omega
        rw [this]
      · simp only [List.length_cons, hlen]
        omega
    · have hieq : i = CAT_MAX_COUNT := by omega
      subst hieq
      refine ⟨[], ?_, by simp⟩
      simp only [catLoop, if_neg hlt]
      have : min (CAT_MAX_COUNT + (t :: ts).length) CAT_MAX_COUNT =
          CAT_MAX_COUNT := by omega
      rw [this]

/-- C2 (amended): for every CIPSO input line that fits in one ingestion
buffer read (at most BUF_SIZE - 2 = 510 characters) and consists of a valid
label, a valid level and more than CAT_MAX_COUNT = 240 valid category
tokens, `smack_cipso_add_from_file` succeeds on that line and appends
exactly one mapping whose category count is exactly 240; the extra
categories are silently ignored.  (Longer lines are split by the 512-byte
read buffer and mis-parsed: see the counterexample.) -/
theorem cipso_cat_cap_240 :
    ∀ (c : smack_cipso) (line lbl lvl : List Char) (cats : List (List Char)),
      line.length ≤ BUF_SIZE - 2 → (∀ ch ∈ line, ch ≠ '\n') →
      splitFields line = lbl :: lvl :: cats →
      (get_label lbl).isSome = true →
      (strtol10 lvl).isSome = true →
      (0 : Int) ≤ (strtol10 lvl).getD 0 →
      (strtol10 lvl).getD 0 ≤ (LEVEL_MAX : Int) →
      (∀ t ∈ cats, (strtol10 t).isSome = true ∧ (0 : Int) ≤ (strtol10 t).getD 0 ∧
        (strtol10 t).getD 0 ≤ (CAT_MAX_VALUE : Int)) →
      CAT_MAX_COUNT < cats.length →
      ∃ (c' : smack_cipso) (m : cipso_mapping),
        smack_cipso_add_from_file c (line ++ ['\n']) = (c', true) ∧
        c'.mappings = c.mappings ++ [m] ∧
        m.ncats = CAT_MAX_COUNT ∧ m.catWrites.length = CAT_MAX_COUNT := by
  intro c line lbl lvl cats hlen hnl hsplit hlbl hlvl hlvl0 hlvlmax hcats hmore
  obtain ⟨len, hlen2⟩ := Option.isSome_iff_exists.mp hlbl
  obtain ⟨v, hv⟩ := Option.isSome_iff_exists.mp hlvl
  have hv0 : (0 : Int) ≤ v := by rw [hv] at hlvl0; simpa using hlvl0
  have hvmax : v ≤ (LEVEL_MAX : Int) := by rw [hv] at hlvlmax; simpa using hlvlmax
  obtain ⟨ws, hws, hwslen⟩ := catLoop_caps cats 0 hcats (by omega)
  have hmin : min (0 + cats.length) CAT_MAX_COUNT = CAT_MAX_COUNT := by omega
  rw [hmin] at hws
  rw [hmin] at hwslen
  have hreads : readLines (BUF_SIZE - 2) (line ++ ['\n']) = [line ++ ['\n']] := by
    have := readLines_line_le (BUF_SIZE - 2) line [] hlen hnl
    simpa using this
  unfold smack_cipso_add_from_file
  rw [hreads]
  have hsplit2 : splitFields (line ++ ['\n']) = lbl :: lvl :: cats := by
    rw [splitFields_delim_end line '\n' (by decide), hsplit]
  simp only [cipso_from_chunks, cipso_add_line, hsplit2, hlen2, hv]
  rw [if_neg (by push_neg; exact ⟨hv0, hvmax⟩), hws]
  refine ⟨⟨(if SHORT_LABEL_LEN < len then { c with has_long := true } else c).has_long,
      (if SHORT_LABEL_LEN < len then { c with has_long := true } else c).mappings ++
        [⟨lbl, ws, CAT_MAX_COUNT, v⟩]⟩,
    ⟨lbl, ws, CAT_MAX_COUNT, v⟩, ?_, ?_, rfl, ?_⟩
  · rfl
  · show (if SHORT_LABEL_LEN < len then { c with has_long := true } else c).mappings ++
        [(⟨lbl, ws, CAT_MAX_COUNT, v⟩ : cipso_mapping)] =
      c.mappings ++ [⟨lbl, ws, CAT_MAX_COUNT, v⟩]
    split <;> rfl
  · show ws.length = CAT_MAX_COUNT
    omega

/-- Witness for C2 on a 241-category line. -/
theorem cipso_cat_cap_240_witness :
    ∃ (c' : smack_cipso) (m : cipso_mapping),
      smack_cipso_add_from_file emptyCipso (cipsoCapLine ++ ['\n']) = (c', true) ∧
      c'.mappings = emptyCipso.mappings ++ [m] ∧
      m.ncats = CAT_MAX_COUNT ∧ m.catWrites.length = CAT_MAX_COUNT :=
  cipso_cat_cap_240 emptyCipso cipsoCapLine ['x'] ['0']
    (List.replicate 241 ['0']) (by decide) (by decide) (by decide) (by decide)
    (by decide) (by decide) (by decide)
    (by
      intro t ht
      have : t = ['0'] := List.eq_of_mem_replicate ht
      subst this
      exact ⟨by decide, by decide, by decide⟩)
    (by decide)

/-! ## Round-trip infrastructure (claim C7) -/

theorem parse_format {c : Nat} (h : c < 64) :
    str_to_access_code (access_code_to_str c) = some c := by
  have key : ∀ x : Fin 64,
      str_to_access_code (access_code_to_str (x : Nat)) = some (x : Nat) := by decide
  exact key ⟨c, h⟩

theorem getD_map_label : ∀ (l : List SmackLabel) (i : Nat),
    (l.map (·.label)).getD i [] = (l.getD i default).label := by
  intro l
  induction l with
  | nil => intro i; cases i <;> rfl
  | cons x xs ih =>
    intro i
    cases i with
    | zero => rfl
    | succ n => simpa using ih n

theorem labelOfId_strings (e : SmackAccesses) (i : Nat) :
    labelOfId e i = (labelStrings e).getD i [] := by
  unfold labelOfId labelStrings
  rw [getD_map_label]

theorem ruleEntry_strings_eq {e₁ e₂ : SmackAccesses}
    (h : labelStrings e₁ = labelStrings e₂) : ruleEntry e₁ = ruleEntry e₂ := by
  funext r
  unfold ruleEntry
  rw [labelOfId_strings, labelOfId_strings, h]

theorem listModify_mem (f : α → α) : ∀ (ls : List α) (i : Nat) (x : α),
    x ∈ listModify f i ls → x ∈ ls ∨ ∃ y ∈ ls, x = f y := by
  intro ls
  induction ls with
  | nil =>
    intro i x h
    cases i <;> simp [listModify] at h
  | cons a as ih =>
    intro i x h
    cases i with
    | zero =>
      rcases List.mem_cons.mp h with rfl | h2
      · exact Or.inr ⟨a, List.mem_cons_self a as, rfl⟩
      · exact Or.inl (List.mem_cons_of_mem _ h2)
    | succ n =>
      rcases List.mem_cons.mp h with rfl | h2
      · exact Or.inl (List.mem_cons_self x as)
      · rcases ih n x h2 with h3 | ⟨y, hy, hxy⟩
        · exact Or.inl (List.mem_cons_of_mem _ h3)
        · exact Or.inr ⟨y, List.mem_cons_of_mem _ hy, hxy⟩

theorem nodup_length_le {α : Type _} [DecidableEq α] :
    ∀ (d l : List α), d.Nodup → (∀ x ∈ d, x ∈ l) → d.length ≤ l.length := by
  intro d
  induction d with
  | nil => intro l _ _; simp
  | cons a as ih =>
    intro l hnodup hsub
    obtain ⟨hanot, hasnodup⟩ := List.nodup_cons.mp hnodup
    have ha : a ∈ l := hsub a (List.mem_cons_self a as)
    have hrec : as.length ≤ (l.erase a).length := by
      apply ih (l.erase a) hasnodup
      intro x hx
      have hne : x ≠ a := fun hxa => hanot (hxa ▸ hx)
      exact (List.mem_erase_of_ne hne).mpr (hsub x (List.mem_cons_of_mem _ hx))
    have herase : (l.erase a).length = l.length - 1 := List.length_erase_of_mem ha
    have hpos : 0 < l.length := List.length_pos_of_mem ha
    simp only [List.length_cons]
    omega

theorem label_add_isSome (h : SmackAccesses) (s : List Char)
    (hcap : h.labels.length ≠ MAX_LABELS_CNT)
    (hval : (get_label s).isSome = true) :
    ∃ h₁ i len, label_add h s = (h₁, some (i, len)) := by
  rcases label_add_cases h s with ⟨hc, _⟩ | ⟨_, hg, _⟩ |
    ⟨i0, len0, _, hg, _, he⟩ | ⟨len0, _, hg, _, he⟩
  · exact absurd hc hcap
  · rw [hg] at hval; cases hval
  · exact ⟨h, i0, len0, he⟩
  · exact ⟨_, h.labels.length, len0, he⟩

theorem rulesFilter_listModify (r : SmackRule)
    (ent : SmackRule → List Char × Nat × Nat) (S : List Char) :
    ∀ (ls : List SmackLabel) (sid : Nat), sid < ls.length →
    (ls.map (·.label)).Nodup →
    (((listModify (fun l => { l with rules := l.rules ++ [r] }) sid ls).filter
        (fun l => l.label = S)).map (fun l => l.rules.map ent)).flatten =
      (if (ls.getD sid default).label = S
       then (((ls.filter (fun l => l.label = S)).map
          (fun l => l.rules.map ent)).flatten ++ [ent r])
       else ((ls.filter (fun l => l.label = S)).map
          (fun l => l.rules.map ent)).flatten) := by
  intro ls
  induction ls with
  | nil =>
    intro sid h
    simp at h
  | cons x xs ih =>
    intro sid hsid hnodup
    simp only [List.map_cons, List.nodup_cons] at hnodup
    obtain ⟨hxnot, hxsnodup⟩ := hnodup
    cases sid with
    | zero =>
      simp only [listModify, List.getD_cons_zero]
      by_cases hx : x.label = S
      · have hxs : xs.filter (fun l => l.label = S) = [] := by
          rw [List.filter_eq_nil_iff]
          intro y hy
          simp only [decide_eq_true_eq]
          intro hyS
          exact hxnot (by rw [hx, ← hyS]; exact List.mem_map_of_mem _ hy)
        rw [if_pos hx]
        simp only [List.filter_cons, decide_eq_true_eq]
        rw [if_pos (show ({ x with rules := x.rules ++ [r] } : SmackLabel).label = S from hx),
          if_pos hx]
        simp [hxs]
      · rw [if_neg hx]
        simp only [List.filter_cons, decide_eq_true_eq]
        rw [if_neg (show ¬({ x with rules := x.rules ++ [r] } : SmackLabel).label = S from hx),
          if_neg hx]
    | succ n =>
      have hn : n < xs.length := by simpa using Nat.lt_of_succ_lt_succ hsid
      simp only [listModify, List.getD_cons_succ]
      by_cases hx : x.label = S
      · have hcond : ¬(xs.getD n default).label = S := by
          intro hcond
          apply hxnot
          rw [hx, ← hcond, ← getD_map_label]
          have hnm : n < (xs.map (·.label)).length := by simpa using hn
          rw [List.getD_eq_getElem _ [] hnm]
          exact List.getElem_mem hnm
        rw [if_neg hcond]
        simp only [List.filter_cons, decide_eq_true_eq]
        rw [if_pos hx, if_pos hx]
        simp only [List.map_cons, List.flatten_cons]
        have := ih n hn hxsnodup
        rw [if_neg hcond] at this
        rw [this]
      · simp only [List.filter_cons, decide_eq_true_eq]
        rw [if_neg hx, if_neg hx]
        have := ih n hn hxsnodup
        rw [this]

theorem rulesOfSubject_addRuleAt (g : SmackAccesses) (sid : Nat) (r : SmackRule)
    (hsid : sid < g.labels.length) (hnodup : (labelStrings g).Nodup)
    (S : List Char) :
    rulesOfSubject (addRuleAt g sid r) S =
      (if (g.labels.getD sid default).label = S
       then rulesOfSubject g S ++ [ruleEntry g r]
       else rulesOfSubject g S) := by
  have hstr : labelStrings (addRuleAt g sid r) = labelStrings g :=
    (addRuleAt_strings g sid r).1
  unfold rulesOfSubject
  rw [ruleEntry_strings_eq hstr]
  exact rulesFilter_listModify r (ruleEntry g) S g.labels sid hsid hnodup

theorem rulesOfSubject_append (e : SmackAccesses) (lab : List Char) (S : List Char)
    (hids : ∀ l ∈ e.labels, ∀ r ∈ l.rules, r.object_id < e.labels.length) :
    rulesOfSubject { e with labels := e.labels ++ [⟨lab, []⟩] } S =
      rulesOfSubject e S := by
  unfold rulesOfSubject
  simp only [List.filter_append, List.map_append, List.flatten_append]
  have h2 : ((([⟨lab, []⟩] : List SmackLabel).filter (fun l => l.label = S)).map
      (fun l => l.rules.map (ruleEntry { e with labels := e.labels ++ [⟨lab, []⟩] }))).flatten =
      ([] : List (List Char × Nat × Nat)) := by
    by_cases hl : lab = S
    · simp [List.filter, hl]
    · simp [List.filter, hl]
  rw [h2, List.append_nil]
  have hmapeq : ∀ l ∈ e.labels.filter (fun l => l.label = S),
      l.rules.map (ruleEntry { e with labels := e.labels ++ [⟨lab, []⟩] }) =
        l.rules.map (ruleEntry e) := by
    intro l hl
    have hle : l ∈ e.labels := List.mem_of_mem_filter hl
    apply List.map_congr_left
    intro r hr
    unfold ruleEntry labelOfId
    have hid : r.object_id < e.labels.length := hids l hle r hr
    simp only []
    rw [List.getD_append _ _ _ _ hid]
  rw [List.map_congr_left hmapeq]

theorem printStream_change_ok (e : SmackAccesses) :
    ∀ stream : List (List Char × SmackRule),
      printStream e false true stream =
        (stream.map (fun p =>
          if isModifyStyle p.2
          then OutRec.modify p.1 (labelOfId e p.2.object_id)
            (access_code_to_str p.2.allow_code) (access_code_to_str p.2.deny_code)
          else OutRec.load p.1 (labelOfId e p.2.object_id)
            (access_code_to_str p.2.allow_code)), true) := by
  intro stream
  induction stream with
  | nil => rfl
  | cons p rest ih =>
    simp only [printStream, emitRule]
    by_cases hm : isModifyStyle p.2
    · simp [hm, ih]
    · simp [hm, ih]

theorem renderRec_opLine (e : SmackAccesses) (p : List Char × SmackRule) :
    renderRec true true
      (if isModifyStyle p.2
       then OutRec.modify p.1 (labelOfId e p.2.object_id)
         (access_code_to_str p.2.allow_code) (access_code_to_str p.2.deny_code)
       else OutRec.load p.1 (labelOfId e p.2.object_id)
         (access_code_to_str p.2.allow_code)) =
      opLine (opOfPair e p) ++ ['\n'] := by
  by_cases hm : isModifyStyle p.2 <;>
    simp [hm, renderRec, opLine, opOfPair]

theorem save_eq (e : SmackAccesses) :
    smack_accesses_save e =
      some (((opsOf e).map (fun op => opLine op ++ ['\n'])).flatten) := by
  unfold smack_accesses_save
  rw [accesses_print_eq_stream]
  simp only [Bool.not_true, Bool.false_and, if_false, Bool.false_eq_true]
  rw [printStream_change_ok]
  simp only [if_true, opsOf, List.map_map]
  congr 2
  apply List.map_congr_left
  intro p _
  exact renderRec_opLine e p

theorem rulesOfSubject_labels_only (e' e : SmackAccesses)
    (h : e'.labels = e.labels) (S : List Char) :
    rulesOfSubject e' S = rulesOfSubject e S := by
  have hstr : labelStrings e' = labelStrings e := by unfold labelStrings; rw [h]
  unfold rulesOfSubject
  rw [h, ruleEntry_strings_eq hstr]

theorem rulesOfSubject_append_labels {e' e : SmackAccesses} {lab : List Char}
    (h : e'.labels = e.labels ++ [⟨lab, []⟩])
    (hids : ∀ l ∈ e.labels, ∀ r ∈ l.rules, r.object_id < e.labels.length)
    (S : List Char) : rulesOfSubject e' S = rulesOfSubject e S := by
  rw [rulesOfSubject_labels_only e' { e with labels := e.labels ++ [⟨lab, []⟩] } h,
    rulesOfSubject_append e lab S hids]

theorem engineInv_has_long (g : SmackAccesses) (b : Bool) :
    engineInv { g with has_long := b } ↔ engineInv g := Iff.rfl

theorem engineInv_label_add {g g₁ : SmackAccesses} {s : List Char} {i len : Nat}
    (hInv : engineInv g) (heq : label_add g s = (g₁, some (i, len)))
    (hval : (get_label s).isSome = true) :
    engineInv g₁ ∧
      (∀ x ∈ labelStrings g₁, x ∈ labelStrings g ∨ x = s) ∧
      g.labels.length ≤ g₁.labels.length := by
  obtain ⟨hInv1, hInv2, hInv3⟩ := hInv
  obtain ⟨_, _, hcase⟩ := label_add_some_strings heq
  rcases hcase with ⟨rfl, _⟩ | ⟨hlabs, hstr, hnot⟩
  · exact ⟨⟨hInv1, hInv2, hInv3⟩, fun x hx => Or.inl hx, Nat.le_refl _⟩
  · refine ⟨⟨?_, ?_, ?_⟩, ?_, ?_⟩
    · rw [hstr, List.nodup_append]
      exact ⟨hInv1, List.nodup_singleton s,
        fun x hx hy => hnot (List.mem_singleton.mp hy ▸ hx)⟩
    · intro l hl
      rw [hlabs] at hl
      rcases List.mem_append.mp hl with hl | hl
      · exact hInv2 l hl
      · rw [List.mem_singleton.mp hl]
        exact hval
    · intro l hl r hr
      rw [hlabs] at hl ⊢
      rcases List.mem_append.mp hl with hl | hl
      · obtain ⟨h1, h2, h3⟩ := hInv3 l hl r hr
        exact ⟨by simp only [List.length_append]; omega, h2, h3⟩
      · rw [List.mem_singleton.mp hl] at hr
        cases hr
    · intro x hx
      rw [hstr] at hx
      rcases List.mem_append.mp hx with hx | hx
      · exact Or.inl hx
      · exact Or.inr (List.mem_singleton.mp hx)
    · rw [hlabs]
      simp only [List.length_append]
      omega

theorem engineInv_addRuleAt {g : SmackAccesses} (hInv : engineInv g)
    (sid : Nat) (r : SmackRule) (hoid : r.object_id < g.labels.length)
    (hac : r.allow_code < 64) (hdc : r.deny_code < 64) :
    engineInv (addRuleAt g sid r) := by
  obtain ⟨hInv1, hInv2, hInv3⟩ := hInv
  obtain ⟨hstr, _, hlen⟩ := addRuleAt_strings g sid r
  refine ⟨hstr ▸ hInv1, ?_, ?_⟩
  · intro l hl
    rcases listModify_mem _ g.labels sid l hl with hl2 | ⟨y, hy, rfl⟩
    · exact hInv2 l hl2
    · exact hInv2 y hy
  · intro l hl r2 hr2
    rw [hlen]
    rcases listModify_mem _ g.labels sid l hl with hl2 | ⟨y, hy, rfl⟩
    · exact hInv3 l hl2 r2 hr2
    · rcases List.mem_append.mp hr2 with hr3 | hr3
      · exact hInv3 y hy r2 hr3
      · rw [List.mem_singleton.mp hr3]
        exact ⟨hoid, hac, hdc⟩

theorem get_label_fields {s : List Char} (h : (get_label s).isSome = true) :
    s ≠ [] ∧ s.length ≤ SMACK_LABEL_LEN ∧ ∀ c ∈ s, isDelim c = false := by
  obtain ⟨n, hn⟩ := Option.isSome_iff_exists.mp h
  obtain ⟨hne, _, _, hlen, hval⟩ := (get_label_eq_some s n).mp hn
  refine ⟨hne, hlen, fun c hc => ?_⟩
  have h33 := ((validLabelChar_iff c).mp (hval c hc)).1
  simp only [isDelim, Bool.or_eq_false_iff, decide_eq_false_iff_not]
  refine ⟨⟨?_, ?_⟩, ?_⟩ <;> rintro rfl <;> exact absurd h33 (by decide)

theorem access_code_to_str_no_delim (n : Nat) :
    ∀ c ∈ access_code_to_str n, isDelim c = false := by
  intro c hc
  unfold access_code_to_str at hc
  simp only [List.mem_cons, List.not_mem_nil, or_false] at hc
  rcases hc with h | h | h | h | h | h <;> (subst h; split <;> rfl)

theorem access_code_to_str_ne_nil (n : Nat) : access_code_to_str n ≠ [] := by
  unfold access_code_to_str
  exact List.cons_ne_nil _ _

theorem access_code_to_str_length (n : Nat) : (access_code_to_str n).length = 6 :=
  rfl

theorem opEffect_opOfPair {e : SmackAccesses} {p : List Char × SmackRule}
    (ha : p.2.allow_code < 64) (hd : p.2.deny_code < 64)
    (hn : (p.2.allow_code ||| p.2.deny_code) = ACCESS_TYPE_ALL →
      p.2.deny_code = ACCESS_TYPE_ALL ^^^ p.2.allow_code) :
    opEffect (opOfPair e p) = ruleEntry e p.2 := by
  unfold opEffect opOfPair ruleEntry
  simp only [parse_format ha, Option.getD_some]
  by_cases hm : isModifyStyle p.2
  · simp only [hm, if_true]
    rw [parse_format hd]
    rfl
  · simp only [hm, if_false, Bool.false_eq_true]
    have hall : (p.2.allow_code ||| p.2.deny_code) = ACCESS_TYPE_ALL := by
      simpa [isModifyStyle] using hm
    rw [hn hall]

theorem ruleStream_mem {e : SmackAccesses} {p : List Char × SmackRule}
    (h : p ∈ ruleStream e) : ∃ l ∈ e.labels, p.1 = l.label ∧ p.2 ∈ l.rules := by
  unfold ruleStream at h
  simp only [List.mem_flatten, List.mem_map] at h
  obtain ⟨x, ⟨l, hl, rfl⟩, hp⟩ := h
  simp only [List.mem_map] at hp
  obtain ⟨r, hr, rfl⟩ := hp
  exact ⟨l, hl, rfl, hr⟩

theorem ruleStream_filter_map (ent : SmackRule → List Char × Nat × Nat)
    (S : List Char) : ∀ ls : List SmackLabel,
    (((ls.map (fun l => l.rules.map (fun r => (l.label, r)))).flatten.filter
        (fun p => p.1 = S)).map (fun p => ent p.2)) =
      ((ls.filter (fun l => l.label = S)).map (fun l => l.rules.map ent)).flatten := by
  intro ls
  induction ls with
  | nil => rfl
  | cons l ls ih =>
    simp only [List.map_cons, List.flatten_cons, List.filter_append,
      List.map_append, List.filter_cons]
    by_cases hl : l.label = S
    · rw [if_pos (by simpa using hl)]
      have h1 : (l.rules.map (fun r => (l.label, r))).filter
          (fun p => p.1 = S) = l.rules.map (fun r => (l.label, r)) := by
        apply List.filter_eq_self.mpr
        intro p hp
        simp only [List.mem_map] at hp
        obtain ⟨r, _, rfl⟩ := hp
        simpa using hl
      rw [h1, ih]
      simp only [List.map_map, List.flatten_cons]
      rfl
    · rw [if_neg (by simpa using hl)]
      have h1 : (l.rules.map (fun r => (l.label, r))).filter
          (fun p => p.1 = S) = [] := by
        rw [List.filter_eq_nil_iff]
        intro p hp
        simp only [List.mem_map] at hp
        obtain ⟨r, _, rfl⟩ := hp
        simpa using hl
      rw [h1, ih]
      rfl

theorem opsOf_filter_map (e : SmackAccesses)
    (hcodes : ∀ l ∈ e.labels, ∀ r ∈ l.rules,
      r.allow_code < 64 ∧ r.deny_code < 64)
    (hnorm : ∀ l ∈ e.labels, ∀ r ∈ l.rules,
      (r.allow_code ||| r.deny_code) = ACCESS_TYPE_ALL →
      r.deny_code = ACCESS_TYPE_ALL ^^^ r.allow_code)
    (S : List Char) :
    ((opsOf e).filter (fun op => op.subj = S)).map opEffect =
      rulesOfSubject e S := by
  unfold opsOf
  rw [List.filter_map, List.map_map]
  have hmem : ∀ p ∈ (ruleStream e).filter
      ((fun op => decide (op.subj = S)) ∘ opOfPair e),
      (opEffect ∘ opOfPair e) p = (fun q : List Char × SmackRule => ruleEntry e q.2) p := by
    intro p hp
    obtain ⟨l, hl, _, hpr⟩ := ruleStream_mem (List.mem_of_mem_filter hp)
    obtain ⟨hac, hdc⟩ := hcodes l hl p.2 hpr
    exact opEffect_opOfPair hac hdc (hnorm l hl p.2 hpr)
  rw [List.map_congr_left hmem]
  exact ruleStream_filter_map (ruleEntry e) S e.labels

theorem opLine_no_newline (op : TextOp)
    (hs : ∀ c ∈ op.subj, isDelim c = false)
    (ho : ∀ c ∈ op.obj, isDelim c = false)
    (ha : ∀ c ∈ op.acc, isDelim c = false)
    (hd : ∀ d, op.den = some d → ∀ c ∈ d, isDelim c = false) :
    ∀ c ∈ opLine op, c ≠ '\n' := by
  have hnd : ∀ (x : Char), isDelim x = false → x ≠ '\n' := by
    intro x hx hxe
    subst hxe
    simp [isDelim] at hx
  intro c hc
  unfold opLine at hc
  cases hdop : op.den with
  | none =>
    rw [hdop] at hc
    simp only [List.mem_append, List.mem_cons] at hc
    rcases hc with h | rfl | h | rfl | h
    · exact hnd c (hs c h)
    · decide
    · exact hnd c (ho c h)
    · decide
    · exact hnd c (ha c h)
  | some d =>
    rw [hdop] at hc
    simp only [List.mem_append, List.mem_cons] at hc
    rcases hc with h | rfl | h | rfl | h | rfl | h
    · exact hnd c (hs c h)
    · decide
    · exact hnd c (ho c h)
    · decide
    · exact hnd c (ha c h)
    · decide
    · exact hnd c (hd d hdop c h)

theorem opLine_length_pos (op : TextOp) : 0 < (opLine op).length := by
  unfold opLine
  cases op.den <;> (simp only [List.length_append, List.length_cons]; omega)

theorem from_chunks_cons (h : SmackAccesses) (op : TextOp)
    (chunks : List (List Char))
    (hsne : op.subj ≠ []) (hsd : ∀ c ∈ op.subj, isDelim c = false)
    (hone : op.obj ≠ []) (hod : ∀ c ∈ op.obj, isDelim c = false)
    (hane : op.acc ≠ []) (had : ∀ c ∈ op.acc, isDelim c = false)
    (hdin : ∀ d, op.den = some d → d ≠ [] ∧ ∀ c ∈ d, isDelim c = false) :
    accesses_from_chunks h ((opLine op ++ ['\n']) :: chunks) =
      (match accesses_add h op.subj op.obj op.acc op.den with
       | (h1, true) => accesses_from_chunks h1 chunks
       | (h1, false) => (h1, false)) := by
  have hne : ¬(opLine op ++ ['\n'] = ['\n']) := by
    intro hcontra
    have hlen1 := congrArg List.length hcontra
    have hpos := opLine_length_pos op
    simp only [List.length_append, List.length_cons, List.length_nil] at hlen1
    omega
  cases hdop : op.den with
  | none =>
    have hform : opLine op = op.subj ++ ' ' :: (op.obj ++ ' ' :: op.acc) := by
      unfold opLine; rw [hdop]
    have hsp : splitFields (opLine op ++ ['\n']) =
        [op.subj, op.obj, op.acc] := by
      rw [splitFields_delim_end _ '\n' (by decide), hform,
        splitFields_three _ _ _ hsne hsd hone hod hane had]
    simp only [accesses_from_chunks, if_neg hne, hsp]
  | some d =>
    obtain ⟨hdne, hdd⟩ := hdin d hdop
    have hform : opLine op =
        op.subj ++ ' ' :: (op.obj ++ ' ' :: (op.acc ++ ' ' :: d)) := by
      unfold opLine; rw [hdop]
    have hsp : splitFields (opLine op ++ ['\n']) =
        [op.subj, op.obj, op.acc, d] := by
      rw [splitFields_delim_end _ '\n' (by decide), hform,
        splitFields_four _ _ _ _ hsne hsd hone hod hane had hdne hdd]
    simp only [accesses_from_chunks, if_neg hne, hsp]

theorem from_chunks_cons_full (h : SmackAccesses) (op : TextOp)
    (chunks : List (List Char))
    (hsne : op.subj ≠ []) (hsd : ∀ c ∈ op.subj, isDelim c = false)
    (hone : op.obj ≠ []) (hod : ∀ c ∈ op.obj, isDelim c = false)
    (hane : op.acc ≠ []) (had : ∀ c ∈ op.acc, isDelim c = false)
    (hdin : ∀ d, op.den = some d → d ≠ [] ∧ ∀ c ∈ d, isDelim c = false) :
    accesses_from_chunks h (opLine op :: ['\n'] :: chunks) =
      (match accesses_add h op.subj op.obj op.acc op.den with
       | (h1, true) => accesses_from_chunks h1 chunks
       | (h1, false) => (h1, false)) := by
  have hnl : ∀ c ∈ opLine op, c ≠ '\n' :=
    opLine_no_newline op hsd hod had (fun d hd2 => (hdin d hd2).2)
  have hne2 : ¬(opLine op = ['\n']) := by
    intro hcontra
    have hm : '\n' ∈ opLine op := by
      rw [hcontra]; exact List.mem_singleton_self _
    exact hnl '\n' hm rfl
  cases hdop : op.den with
  | none =>
    have hform : opLine op = op.subj ++ ' ' :: (op.obj ++ ' ' :: op.acc) := by
      unfold opLine; rw [hdop]
    have hsp : splitFields (opLine op) = [op.subj, op.obj, op.acc] := by
      rw [hform, splitFields_three _ _ _ hsne hsd hone hod hane had]
    simp only [accesses_from_chunks, if_neg hne2, hsp]
    cases hadd : accesses_add h op.subj op.obj op.acc none with
    | mk h1 b =>
      cases b with
      | false => simp [hadd]
      | true => simp [hadd, accesses_from_chunks]
  | some d =>
    obtain ⟨hdne, hdd⟩ := hdin d hdop
    have hform : opLine op =
        op.subj ++ ' ' :: (op.obj ++ ' ' :: (op.acc ++ ' ' :: d)) := by
      unfold opLine; rw [hdop]
    have hsp : splitFields (opLine op) = [op.subj, op.obj, op.acc, d] := by
      rw [hform, splitFields_four _ _ _ _ hsne hsd hone hod hane had hdne hdd]
    simp only [accesses_from_chunks, if_neg hne2, hsp]
    cases hadd : accesses_add h op.subj op.obj op.acc (some d) with
    | mk h1 b =>
      cases b with
      | false => simp [hadd]
      | true => simp [hadd, accesses_from_chunks]

theorem fromChunks_opLines :
    ∀ (ops : List TextOp) (h : SmackAccesses),
      (∀ op ∈ ops,
        op.subj ≠ [] ∧ (∀ c ∈ op.subj, isDelim c = false) ∧
        op.obj ≠ [] ∧ (∀ c ∈ op.obj, isDelim c = false) ∧
        op.acc ≠ [] ∧ (∀ c ∈ op.acc, isDelim c = false) ∧
        (∀ d, op.den = some d → d ≠ [] ∧ ∀ c ∈ d, isDelim c = false) ∧
        (opLine op).length ≤ LOAD_LEN) →
      smack_accesses_add_from_file h
        ((ops.map (fun op => opLine op ++ ['\n'])).flatten) = runOps h ops := by
  intro ops
  induction ops with
  | nil => intro h _; rfl
  | cons op ops ih =>
    intro h hops
    obtain ⟨hsne, hsd, hone, hod, hane, had, hdin, hlen⟩ :=
      hops op (List.mem_cons_self op ops)
    have hnl : ∀ c ∈ opLine op, c ≠ '\n' :=
      opLine_no_newline op hsd hod had (fun d hd2 => (hdin d hd2).2)
    have hL : LOAD_LEN = 525 := rfl
    have hflat : ((op :: ops).map (fun o => opLine o ++ ['\n'])).flatten =
        opLine op ++ '\n' :: ((ops.map (fun o => opLine o ++ ['\n'])).flatten) := by
      simp only [List.map_cons, List.flatten_cons, List.append_assoc,
        List.singleton_append]
    rcases Nat.lt_or_ge (opLine op).length LOAD_LEN with hlt | hge
    · have hle : (opLine op).length ≤ LOAD_LEN - 1 := by omega
      unfold smack_accesses_add_from_file
      rw [hflat, readLines_line_le (LOAD_LEN - 1) (opLine op) _ hle hnl,
        from_chunks_cons h op _ hsne hsd hone hod hane had hdin]
      simp only [runOps]
      cases hadd : accesses_add h op.subj op.obj op.acc op.den with
      | mk h1 b =>
        cases b with
        | false => simp only [hadd]
        | true =>
          simp only [hadd]
          have hih := ih h1 (fun x hx => hops x (List.mem_cons_of_mem op hx))
          unfold smack_accesses_add_from_file at hih
          exact hih
    · have hfull : (opLine op).length = (LOAD_LEN - 1) + 1 := by omega
      unfold smack_accesses_add_from_file
      rw [hflat, readLines_line_full (LOAD_LEN - 1) (opLine op) _ hfull hnl,
        from_chunks_cons_full h op _ hsne hsd hone hod hane had hdin]
      simp only [runOps]
      cases hadd : accesses_add h op.subj op.obj op.acc op.den with
      | mk h1 b =>
        cases b with
        | false => simp only [hadd]
        | true =>
          simp only [hadd]
          have hih := ih h1 (fun x hx => hops x (List.mem_cons_of_mem op hx))
          unfold smack_accesses_add_from_file at hih
          exact hih

theorem accesses_add_step_core (g g2 : SmackAccesses) {H : SmackAccesses}
    {E : List (List Char)}
    (hsub2 : ∀ s ∈ labelStrings g2, s ∈ E)
    (hInv2 : engineInv g2)
    (hHlab : H.labels = g2.labels)
    {sid oid ac dc : Nat} {subj obj : List Char}
    (hsid : sid < g2.labels.length)
    (hoid : oid < g2.labels.length)
    (hac : ac < 64) (hdc : dc < 64)
    (hsubj : (g2.labels.getD sid default).label = subj)
    (hobj : (g2.labels.getD oid default).label = obj)
    (hrules : ∀ S, rulesOfSubject g2 S = rulesOfSubject g S) :
    engineInv (addRuleAt H sid ⟨ac, dc, oid⟩) ∧
    (∀ s ∈ labelStrings (addRuleAt H sid ⟨ac, dc, oid⟩), s ∈ E) ∧
    ∀ S, rulesOfSubject (addRuleAt H sid ⟨ac, dc, oid⟩) S =
      (if subj = S then rulesOfSubject g S ++ [(obj, ac, dc)]
       else rulesOfSubject g S) := by
  have hHstr : labelStrings H = labelStrings g2 := by
    unfold labelStrings; rw [hHlab]
  have hInvH : engineInv H := by
    unfold engineInv labelStrings at hInv2 ⊢
    rw [hHlab]
    exact hInv2
  have hrulesH : ∀ S, rulesOfSubject H S = rulesOfSubject g S :=
    fun S => (rulesOfSubject_labels_only H g2 hHlab S).trans (hrules S)
  obtain ⟨hstrA, _, _⟩ := addRuleAt_strings H sid ⟨ac, dc, oid⟩
  refine ⟨engineInv_addRuleAt hInvH sid _ (by rw [hHlab]; exact hoid) hac hdc,
    ?_, ?_⟩
  · intro s hsmem
    rw [hstrA, hHstr] at hsmem
    exact hsub2 s hsmem
  · intro S
    rw [rulesOfSubject_addRuleAt H sid _ (by rw [hHlab]; exact hsid) hInvH.1 S]
    have hentry : ruleEntry H ⟨ac, dc, oid⟩ = (obj, ac, dc) := by
      show ((H.labels.getD oid default).label, ac, dc) = (obj, ac, dc)
      rw [hHlab, hobj]
    rw [hHlab, hsubj, hentry, hrulesH S]

theorem accesses_add_step {g : SmackAccesses} {E : List (List Char)}
    (hcap : E.length ≤ MAX_LABELS_CNT - 1)
    (hInv : engineInv g) (hsub : ∀ s ∈ labelStrings g, s ∈ E)
    (op : TextOp)
    (hs : op.subj ∈ E) (hsv : (get_label op.subj).isSome = true)
    (ho : op.obj ∈ E) (hov : (get_label op.obj).isSome = true)
    (hacex : ∃ ac, ac < 64 ∧ op.acc = access_code_to_str ac)
    (hdenex : ∀ d, op.den = some d → ∃ dc, dc < 64 ∧ d = access_code_to_str dc) :
    ∃ g', accesses_add g op.subj op.obj op.acc op.den = (g', true) ∧
      engineInv g' ∧ (∀ s ∈ labelStrings g', s ∈ E) ∧
      ∀ S, rulesOfSubject g' S =
        (if op.subj = S then rulesOfSubject g S ++ [opEffect op]
         else rulesOfSubject g S) := by
  obtain ⟨ac, hac_lt, hacc⟩ := hacex
  have hparse : str_to_access_code op.acc = some ac := by
    rw [hacc]; exact parse_format hac_lt
  have hMX : MAX_LABELS_CNT = 65536 := rfl
  have hglen : g.labels.length ≤ MAX_LABELS_CNT - 1 := by
    have h1 := nodup_length_le (labelStrings g) E hInv.1 hsub
    have h2 : (labelStrings g).length = g.labels.length := List.length_map _ _
    omega
  obtain ⟨g1, sid, slen, hadd1⟩ := label_add_isSome g op.subj (by omega) hsv
  obtain ⟨hsid_lt, hsid_lab, _, hlong1, hgl_s⟩ := label_add_some_spec hadd1
  obtain ⟨hInv1, hsub1', hlen1⟩ := engineInv_label_add hInv hadd1 hsv
  have hsub1 : ∀ s ∈ labelStrings g1, s ∈ E := by
    intro x hx
    rcases hsub1' x hx with h | rfl
    · exact hsub x h
    · exact hs
  have hg1len : g1.labels.length ≤ MAX_LABELS_CNT - 1 := by
    have h1 := nodup_length_le (labelStrings g1) E hInv1.1 hsub1
    have h2 : (labelStrings g1).length = g1.labels.length := List.length_map _ _
    omega
  obtain ⟨g2, oid, olen, hadd2⟩ := label_add_isSome g1 op.obj (by omega) hov
  obtain ⟨hoid_lt, hoid_lab, ⟨ext2, hext2⟩, hlong2, hgl_o⟩ :=
    label_add_some_spec hadd2
  obtain ⟨hInv2, hsub2', hlen2⟩ := engineInv_label_add hInv1 hadd2 hov
  have hsub2 : ∀ s ∈ labelStrings g2, s ∈ E := by
    intro x hx
    rcases hsub2' x hx with h | rfl
    · exact hsub1 x h
    · exact ho
  have hrules1 : ∀ S, rulesOfSubject g1 S = rulesOfSubject g S := by
    obtain ⟨_, _, hcase⟩ := label_add_some_strings hadd1
    rcases hcase with ⟨heq, _⟩ | ⟨hlabs, _, _⟩
    · subst heq; exact fun S => rfl
    · exact fun S => rulesOfSubject_append_labels hlabs
        (fun l hl r hr => (hInv.2.2 l hl r hr).1) S
  have hrules2 : ∀ S, rulesOfSubject g2 S = rulesOfSubject g S := by
    obtain ⟨_, _, hcase⟩ := label_add_some_strings hadd2
    rcases hcase with ⟨heq, _⟩ | ⟨hlabs, _, _⟩
    · subst heq; exact fun S => hrules1 S
    · exact fun S => (rulesOfSubject_append_labels hlabs
        (fun l hl r hr => (hInv1.2.2 l hl r hr).1) S).trans (hrules1 S)
  have hsid2 : sid < g2.labels.length := by omega
  have hsubj2 : (g2.labels.getD sid default).label = op.subj := by
    rw [hext2, List.getD_append _ _ _ _ hsid_lt]
    exact hsid_lab
  have hHlab : (if SHORT_LABEL_LEN < slen || SHORT_LABEL_LEN < olen
      then { g2 with has_long := true } else g2).labels = g2.labels := by
    split <;> rfl
  cases hdop : op.den with
  | none =>
    have hdc_lt : ACCESS_TYPE_ALL ^^^ ac < 64 := by
      have key : ∀ x : Fin 64, ACCESS_TYPE_ALL ^^^ (x : Nat) < 64 := by decide
      exact key ⟨ac, hac_lt⟩
    obtain ⟨hInvC, hsubC, hrulesC⟩ :=
      accesses_add_step_core g g2 hsub2 hInv2 hHlab hsid2 hoid_lt
        hac_lt hdc_lt hsubj2 hoid_lab hrules2
    refine ⟨_, ?_, hInvC, hsubC, ?_⟩
    · unfold accesses_add
      rw [hadd1]
      simp only []
      rw [hadd2]
      simp only []
      rw [hparse]
    · intro S
      have heff : opEffect op = (op.obj, ac, ACCESS_TYPE_ALL ^^^ ac) := by
        simp only [opEffect, hdop, hparse, Option.getD_some]
      rw [hrulesC S, heff]
  | some d =>
    obtain ⟨dc, hdc_lt, hdeq⟩ := hdenex d hdop
    have hparse_d : str_to_access_code d = some dc := by
      rw [hdeq]; exact parse_format hdc_lt
    obtain ⟨hInvC, hsubC, hrulesC⟩ :=
      accesses_add_step_core g g2 hsub2 hInv2 hHlab hsid2 hoid_lt
        hac_lt hdc_lt hsubj2 hoid_lab hrules2
    refine ⟨_, ?_, hInvC, hsubC, ?_⟩
    · unfold accesses_add
      rw [hadd1]
      simp only []
      rw [hadd2]
      simp only []
      rw [hparse]
      simp only []
      rw [hparse_d]
    · intro S
      have heff : opEffect op = (op.obj, ac, dc) := by
        simp only [opEffect, hdop, hparse, hparse_d, Option.getD_some]
      rw [hrulesC S, heff]

theorem runOps_spec :
    ∀ (ops : List TextOp) (g : SmackAccesses) (E : List (List Char)),
      E.length ≤ MAX_LABELS_CNT - 1 →
      engineInv g →
      (∀ s ∈ labelStrings g, s ∈ E) →
      (∀ op ∈ ops,
        op.subj ∈ E ∧ (get_label op.subj).isSome = true ∧
        op.obj ∈ E ∧ (get_label op.obj).isSome = true ∧
        (∃ ac, ac < 64 ∧ op.acc = access_code_to_str ac) ∧
        (∀ d, op.den = some d → ∃ dc, dc < 64 ∧ d = access_code_to_str dc)) →
      ∃ g', runOps g ops = (g', true) ∧ engineInv g' ∧
        (∀ s ∈ labelStrings g', s ∈ E) ∧
        ∀ S, rulesOfSubject g' S =
          rulesOfSubject g S ++
            ((ops.filter (fun op => op.subj = S)).map opEffect) := by
  intro ops
  induction ops with
  | nil =>
    intro g E _ hInv hsub _
    exact ⟨g, rfl, hInv, hsub, fun S => by simp⟩
  | cons op ops ih =>
    intro g E hcap hInv hsub hops
    obtain ⟨hs, hsv, ho, hov, hacex, hdenex⟩ := hops op (List.mem_cons_self op ops)
    obtain ⟨g1, hadd, hInv1, hsub1, hrules1⟩ :=
      accesses_add_step hcap hInv hsub op hs hsv ho hov hacex hdenex
    obtain ⟨g', hrun, hInv', hsub', hrules'⟩ :=
      ih g1 E hcap hInv1 hsub1 (fun x hx => hops x (List.mem_cons_of_mem op hx))
    refine ⟨g', ?_, hInv', hsub', ?_⟩
    · simp only [runOps, hadd]
      exact hrun
    · intro S
      rw [hrules' S, hrules1 S, List.filter_cons]
      by_cases hS : op.subj = S <;> simp [hS, List.append_assoc]

theorem accesses_add_success_effect {g g' : SmackAccesses} (op : TextOp)
    (hInv : engineInv g)
    (heq : accesses_add g op.subj op.obj op.acc op.den = (g', true)) :
    engineInv g' ∧
    ∀ S, rulesOfSubject g' S =
      (if op.subj = S then rulesOfSubject g S ++ [opEffect op]
       else rulesOfSubject g S) := by
  obtain ⟨g1, g2, sid, oid, slen, olen, ac, dc, hadd1, hadd2, hparse, hdspec, rfl⟩ :=
    accesses_add_true_spec heq
  obtain ⟨hsid_lt, hsid_lab, _, _, hgl_s⟩ := label_add_some_spec hadd1
  obtain ⟨hoid_lt, hoid_lab, ⟨ext2, hext2⟩, _, hgl_o⟩ := label_add_some_spec hadd2
  have hsv : (get_label op.subj).isSome = true := by rw [hgl_s]; rfl
  have hov : (get_label op.obj).isSome = true := by rw [hgl_o]; rfl
  obtain ⟨hInv1, _, hlen1⟩ := engineInv_label_add hInv hadd1 hsv
  obtain ⟨hInv2, _, hlen2⟩ := engineInv_label_add hInv1 hadd2 hov
  have hac_lt : ac < 64 := str_to_access_code_lt hparse
  have heff : opEffect op = (op.obj, ac, dc) ∧ dc < 64 := by
    cases hdop : op.den with
    | none =>
      rw [hdop] at hdspec
      simp only [] at hdspec
      subst hdspec
      refine ⟨?_, ?_⟩
      · simp only [opEffect, hdop, hparse, Option.getD_some]
      · have key : ∀ x : Fin 64, ACCESS_TYPE_ALL ^^^ (x : Nat) < 64 := by decide
        exact key ⟨ac, hac_lt⟩
    | some d =>
      rw [hdop] at hdspec
      simp only [] at hdspec
      refine ⟨?_, str_to_access_code_lt hdspec⟩
      simp only [opEffect, hdop, hparse, hdspec, Option.getD_some]
  have hrules1 : ∀ S, rulesOfSubject g1 S = rulesOfSubject g S := by
    obtain ⟨_, _, hcase⟩ := label_add_some_strings hadd1
    rcases hcase with ⟨heq1, _⟩ | ⟨hlabs, _, _⟩
    · subst heq1; exact fun S => rfl
    · exact fun S => rulesOfSubject_append_labels hlabs
        (fun l hl r hr => (hInv.2.2 l hl r hr).1) S
  have hrules2 : ∀ S, rulesOfSubject g2 S = rulesOfSubject g S := by
    obtain ⟨_, _, hcase⟩ := label_add_some_strings hadd2
    rcases hcase with ⟨heq1, _⟩ | ⟨hlabs, _, _⟩
    · subst heq1; exact fun S => hrules1 S
    · exact fun S => (rulesOfSubject_append_labels hlabs
        (fun l hl r hr => (hInv1.2.2 l hl r hr).1) S).trans (hrules1 S)
  have hsid2 : sid < g2.labels.length := by omega
  have hsubj2 : (g2.labels.getD sid default).label = op.subj := by
    rw [hext2, List.getD_append _ _ _ _ hsid_lt]
    exact hsid_lab
  have hHlab : (if (SHORT_LABEL_LEN < slen || SHORT_LABEL_LEN < olen) = true
      then { g2 with has_long := true } else g2).labels = g2.labels := by
    split <;> rfl
  obtain ⟨hInvC, _, hrulesC⟩ :=
    accesses_add_step_core g g2 (fun s hs => hs) hInv2 hHlab hsid2 hoid_lt
      hac_lt heff.2 hsubj2 hoid_lab hrules2
  refine ⟨hInvC, fun S => ?_⟩
  rw [hrulesC S, heff.1]

theorem runOps_success_spec :
    ∀ (ops : List TextOp) (g g' : SmackAccesses),
      runOps g ops = (g', true) → engineInv g →
      engineInv g' ∧
      ∀ S, rulesOfSubject g' S =
        rulesOfSubject g S ++
          ((ops.filter (fun op => op.subj = S)).map opEffect) := by
  intro ops
  induction ops with
  | nil =>
    intro g g' hrun hInv
    simp only [runOps, Prod.mk.injEq] at hrun
    obtain ⟨rfl, _⟩ := hrun
    exact ⟨hInv, fun S => by simp⟩
  | cons op ops ih =>
    intro g g' hrun hInv
    simp only [runOps] at hrun
    cases hadd : accesses_add g op.subj op.obj op.acc op.den with
    | mk h1 b =>
      rw [hadd] at hrun
      cases b with
      | false =>
        simp only [] at hrun
        exact absurd hrun (by simp [Prod.ext_iff])
      | true =>
        simp only [] at hrun
        obtain ⟨hInv1, heff⟩ := accesses_add_success_effect op hInv hadd
        obtain ⟨hInv', hrules'⟩ := ih h1 g' hrun hInv1
        refine ⟨hInv', fun S => ?_⟩
        rw [hrules' S, heff S, List.filter_cons]
        by_cases hS : op.subj = S <;> simp [hS, List.append_assoc]

theorem opsOf_conditions {e : SmackAccesses} (hInv : engineInv e) :
    ∀ op ∈ opsOf e,
      op.subj ∈ labelStrings e ∧ (get_label op.subj).isSome = true ∧
      op.obj ∈ labelStrings e ∧ (get_label op.obj).isSome = true ∧
      (∃ ac, ac < 64 ∧ op.acc = access_code_to_str ac) ∧
      (∀ d, op.den = some d → ∃ dc, dc < 64 ∧ d = access_code_to_str dc) := by
  intro op hop
  unfold opsOf at hop
  obtain ⟨p, hp, rfl⟩ := List.mem_map.mp hop
  obtain ⟨l, hl, hp1, hpr⟩ := ruleStream_mem hp
  obtain ⟨hoid, hac, hdc⟩ := hInv.2.2 l hl p.2 hpr
  have hobjmem : e.labels.getD p.2.object_id default ∈ e.labels := by
    rw [List.getD_eq_getElem _ _ hoid]
    exact List.getElem_mem hoid
  refine ⟨?_, ?_, ?_, ?_, ⟨p.2.allow_code, hac, rfl⟩, ?_⟩
  · show p.1 ∈ labelStrings e
    rw [hp1]
    exact List.mem_map_of_mem _ hl
  · show (get_label p.1).isSome = true
    rw [hp1]
    exact hInv.2.1 l hl
  · show labelOfId e p.2.object_id ∈ labelStrings e
    unfold labelOfId labelStrings
    exact List.mem_map_of_mem _ hobjmem
  · show (get_label (labelOfId e p.2.object_id)).isSome = true
    exact hInv.2.1 _ hobjmem
  · intro d hd
    show ∃ dc, dc < 64 ∧ d = access_code_to_str dc
    have hd2 : (if isModifyStyle p.2
        then some (access_code_to_str p.2.deny_code) else none) = some d := hd
    by_cases hm : isModifyStyle p.2
    · rw [if_pos hm] at hd2
      exact ⟨p.2.deny_code, hdc, (Option.some_inj.mp hd2).symm⟩
    · rw [if_neg hm] at hd2
      cases hd2

theorem opsOf_line_len {e : SmackAccesses} (hInv : engineInv e) :
    ∀ op ∈ opsOf e, (opLine op).length ≤ LOAD_LEN := by
  intro op hop
  obtain ⟨_, hsv, _, hov, ⟨ac, _, hacc⟩, hden⟩ := opsOf_conditions hInv op hop
  obtain ⟨_, hslen, _⟩ := get_label_fields hsv
  obtain ⟨_, holen, _⟩ := get_label_fields hov
  have hal : op.acc.length = 6 := by rw [hacc]; rfl
  have h255 : SMACK_LABEL_LEN = 255 := rfl
  have hL : LOAD_LEN = 525 := rfl
  unfold opLine
  cases hd : op.den with
  | none =>
    simp only [List.length_append, List.length_cons]
    omega
  | some d =>
    obtain ⟨dc, _, hdeq⟩ := hden d hd
    have hdl : d.length = 6 := by rw [hdeq]; rfl
    simp only [List.length_append, List.length_cons]
    omega

/-- C7 (amended): `save` always succeeds.  For every engine whose interned
labels are distinct valid label strings with in-range object ids and 6-bit
codes (true of every engine built through the interface) and whose
load-style rules store the normalized complement deny mask (deny = all-bits
XOR allow whenever allow OR deny covers all bits — true of every rule
created by plain `add` or by text ingestion, but not of every `add_modify`
rule: see `save_roundtrip_counterexample`), re-ingesting the saved text into
a fresh engine via `add_from_file` succeeds and reproduces, for every
subject string, exactly the same sequence of (object string, allow mask,
deny mask) rules, under a hypothesis that excludes no true case of the
claim: the engine holds at most 65,535 interned labels (re-ingestion is then
proved to succeed outright), or the re-ingestion succeeds at all (the
capacity check of `label_add` precedes its dedup lookup, so it can refuse an
intern only once the fresh table already holds 65,536 labels; whether that
point is reached before the saved text ends depends on where each label
first appears in it).  Without the normalization hypothesis the round trip
rewrites an overlapping deny mask (`save_roundtrip_counterexample`), because
a load-style rule's deny mask is not written to the save output and is
re-derived as the complement of allow on ingestion. -/
theorem save_roundtrip_per_subject (e : SmackAccesses)
    (hInv : engineInv e)
    (hnorm : ∀ l ∈ e.labels, ∀ r ∈ l.rules,
      (r.allow_code ||| r.deny_code) = ACCESS_TYPE_ALL →
      r.deny_code = ACCESS_TYPE_ALL ^^^ r.allow_code)
    (hok : e.labels.length ≤ MAX_LABELS_CNT - 1 ∨
      (smack_accesses_add_from_file emptyAccesses
        ((smack_accesses_save e).getD [])).2 = true) :
    ∃ text e', smack_accesses_save e = some text ∧
      smack_accesses_add_from_file emptyAccesses text = (e', true) ∧
      ∀ S, rulesOfSubject e' S = rulesOfSubject e S := by
  have hconds := opsOf_conditions hInv
  have hlens := opsOf_line_len hInv
  have hrun : smack_accesses_add_from_file emptyAccesses
      (((opsOf e).map (fun op => opLine op ++ ['\n'])).flatten) =
      runOps emptyAccesses (opsOf e) := by
    apply fromChunks_opLines
    intro op hop
    obtain ⟨_, hsv, _, hov, ⟨ac, _, hacc⟩, hden⟩ := hconds op hop
    obtain ⟨hs1, _, hs3⟩ := get_label_fields hsv
    obtain ⟨ho1, _, ho3⟩ := get_label_fields hov
    refine ⟨hs1, hs3, ho1, ho3, ?_, ?_, ?_, hlens op hop⟩
    · rw [hacc]; exact access_code_to_str_ne_nil ac
    · rw [hacc]; exact access_code_to_str_no_delim ac
    · intro d hd
      obtain ⟨dc, _, hdeq⟩ := hden d hd
      refine ⟨?_, ?_⟩
      · rw [hdeq]; exact access_code_to_str_ne_nil dc
      · rw [hdeq]; exact access_code_to_str_no_delim dc
  rcases hok with hcap | hsucc
  · have hElen : (labelStrings e).length ≤ MAX_LABELS_CNT - 1 := by
      have h2 : (labelStrings e).length = e.labels.length := List.length_map _ _
      omega
    obtain ⟨e', hrops, _, _, hrules⟩ :=
      runOps_spec (opsOf e) emptyAccesses (labelStrings e) hElen
        (by unfold engineInv; decide)
        (by intro s hs; exact absurd hs (List.not_mem_nil s))
        hconds
    refine ⟨_, e', save_eq e, ?_, ?_⟩
    · rw [hrun, hrops]
    · intro S
      rw [hrules S]
      have hzero : rulesOfSubject emptyAccesses S = [] := rfl
      rw [hzero, List.nil_append]
      exact opsOf_filter_map e
        (fun l hl r hr => ⟨(hInv.2.2 l hl r hr).2.1, (hInv.2.2 l hl r hr).2.2⟩)
        hnorm S
  · have htext : (smack_accesses_save e).getD [] =
        ((opsOf e).map (fun op => opLine op ++ ['\n'])).flatten := by
      rw [save_eq]
      rfl
    rw [htext, hrun] at hsucc
    have hrops : runOps emptyAccesses (opsOf e) =
        ((runOps emptyAccesses (opsOf e)).1, true) := by
      rw [← hsucc]
    obtain ⟨_, hrules⟩ :=
      runOps_success_spec (opsOf e) emptyAccesses _ hrops
        (by unfold engineInv; decide)
    refine ⟨_, (runOps emptyAccesses (opsOf e)).1, save_eq e, ?_, ?_⟩
    · rw [hrun]
      exact hrops
    · intro S
      rw [hrules S]
      have hzero : rulesOfSubject emptyAccesses S = [] := rfl
      rw [hzero, List.nil_append]
      exact opsOf_filter_map e
        (fun l hl r hr => ⟨(hInv.2.2 l hl r hr).2.1, (hInv.2.2 l hl r hr).2.2⟩)
        hnorm S

/-- Witness for C7 on a concrete engine holding one load-style and one
modify-style rule, discharging the disjunctive hypothesis through its
label-count arm. -/
theorem save_roundtrip_per_subject_witness :
    engineInv modifyEngine ∧
    modifyEngine.labels.length ≤ MAX_LABELS_CNT - 1 ∧
    ∃ text e', smack_accesses_save modifyEngine = some text ∧
      smack_accesses_add_from_file emptyAccesses text = (e', true) ∧
      ∀ S, rulesOfSubject e' S = rulesOfSubject modifyEngine S :=
  ⟨by unfold engineInv; decide, by decide,
    save_roundtrip_per_subject modifyEngine (by unfold engineInv; decide)
      (by decide) (Or.inl (by decide))⟩

end Smack
